import Mathlib

/-!
Verification of the aiagentflow workflow-orchestration core: the workflow
state machine, the workflow runner loop, the batch task queue, the
connection pool, the response cache and the context-window optimizer.

The state machine (`engine.ts`) is not part of the source snapshot — only
its test suite and its callers are — so `Engine.transition`, `Engine.isTerminal`
and `Engine.getNextAgent` are modelled from the specification (section 4.1)
and cross-checked against the behaviours pinned down by the engine's tests.
Everything else is translated directly from the TypeScript sources.

Conventions: JavaScript `Map` objects are association lists kept in
insertion order (`set` of an existing key updates in place, a new key is
appended, iteration follows list order). `Date.now()` timestamps are
explicit `Int` parameters. Thrown exceptions are `Except` errors; purity
of the embedding makes "the input value is left unchanged on failure"
automatic.
-/

namespace Engine

/-- The workflow states of section 4.1. -/
inductive WState
  | idle | spec_created | plan_approved | code_generated | review_done
  | review_rejected | tests_written | tests_failed | tests_passed
  | fix_applied | qa_approved | qa_rejected | complete | failed
  deriving DecidableEq, Repr

/-- Transition events (tagged union with payloads), from section 4.1. -/
inductive WEvent
  | SPEC_READY (spec : String)
  | PLAN_APPROVED (plan : String)
  | CODE_GENERATED (files : List String)
  | REVIEW_DONE (approved : Bool) (feedback : String)
  | TESTS_WRITTEN (testFiles : List String)
  | TESTS_PASSED
  | TESTS_FAILED (failures : String)
  | FIX_APPLIED (files : List String)
  | QA_APPROVED
  | QA_REJECTED (reason : String)
  | ABORT (reason : Option String)
  deriving DecidableEq, Repr

/-- Name of an event, as recorded in history entries. -/
def eventName : WEvent → String
  | .SPEC_READY _ => "SPEC_READY"
  | .PLAN_APPROVED _ => "PLAN_APPROVED"
  | .CODE_GENERATED _ => "CODE_GENERATED"
  | .REVIEW_DONE _ _ => "REVIEW_DONE"
  | .TESTS_WRITTEN _ => "TESTS_WRITTEN"
  | .TESTS_PASSED => "TESTS_PASSED"
  | .TESTS_FAILED _ => "TESTS_FAILED"
  | .FIX_APPLIED _ => "FIX_APPLIED"
  | .QA_APPROVED => "QA_APPROVED"
  | .QA_REJECTED _ => "QA_REJECTED"
  | .ABORT _ => "ABORT"

/-- One history entry: `{from, to, eventName, timestamp}` (`from` is a Lean
keyword, hence `fromState`/`toState`). -/
structure HistoryEntry where
  fromState : WState
  toState : WState
  event : String
  timestamp : Int
  deriving DecidableEq, Repr

/-- The workflow context record of section 3. -/
structure WorkflowContext where
  task : String
  state : WState
  iteration : Nat
  maxIterations : Nat
  spec : Option String := none
  plan : Option String := none
  reviewFeedback : Option String := none
  testFailures : Option String := none
  generatedFiles : List String := []
  history : List HistoryEntry := []
  deriving DecidableEq, Repr

/-- `WorkflowError`: illegal transition or iteration limit, carrying the
machine-readable context described in section 7. -/
inductive WorkflowError
  | invalidTransition (state : WState) (event : String)
  | iterationLimit (iteration maxIterations : Nat)
  deriving DecidableEq, Repr

/-- Modelled from the spec: `createWorkflowContext` (engine.ts is missing
from the snapshot). A fresh context starts in `idle` with iteration 0 and
empty history. -/
def createWorkflowContext (task : String) (maxIterations : Nat := 5) :
    WorkflowContext :=
  { task := task, state := .idle, iteration := 0, maxIterations := maxIterations }

/-- Modelled from the spec: `isTerminal(ctx)` is true iff the state is
`complete` or `failed`. -/
def isTerminal (ctx : WorkflowContext) : Bool :=
  ctx.state = .complete || ctx.state = .failed

/-- True for the two terminal states. -/
def terminalState (s : WState) : Bool :=
  s = .complete || s = .failed

/-- Agent roles of the pipeline. -/
inductive AgentRole
  | architect | coder | reviewer | tester | fixer | judge
  deriving DecidableEq, Repr

/-- Modelled from the spec: `getNextAgent(ctx)`, the pure mapping from state
to the agent role due next (section 4.1); `none` for every unmapped state. -/
def getNextAgent (ctx : WorkflowContext) : Option AgentRole :=
  match ctx.state with
  | .idle => some .architect
  | .plan_approved => some .coder
  | .code_generated => some .reviewer
  | .review_done => some .tester
  | .review_rejected => some .fixer
  | .tests_failed => some .fixer
  | .tests_passed => some .judge
  | _ => none

/-- Appends the history entry for a successful transition and applies the
per-event field update. -/
def applyStep (ctx : WorkflowContext) (toState : WState) (ev : WEvent) (ts : Int)
    (upd : WorkflowContext → WorkflowContext) :
    Except WorkflowError WorkflowContext :=
  .ok { upd ctx with
          state := toState,
          history := ctx.history ++ [⟨ctx.state, toState, eventName ev, ts⟩] }

/-- Modelled from the spec: the pure `transition` function of section 4.1
(engine.ts is missing from the snapshot; behaviour cross-checked against the
engine's test suite). The guard raises `WorkflowError.iterationLimit` when an
iteration-incrementing transition (a rejecting `REVIEW_DONE` or `FIX_APPLIED`)
is attempted with `iteration` already at `maxIterations` — the increment would
go past the limit; incrementing from `iteration = maxIterations - 1` still
succeeds, as the engine test at maxIterations = 2 pins (the rejection at
iteration 0 and the fix at iteration 1 succeed, the rejection at iteration 2
throws). Any event not valid for the current state raises
`WorkflowError.invalidTransition` identifying the pair. -/
def transition (ctx : WorkflowContext) (ev : WEvent) (ts : Int) :
    Except WorkflowError WorkflowContext :=
  match ev, ctx.state with
  | .SPEC_READY s, .idle =>
      applyStep ctx .spec_created ev ts (fun c => { c with spec := some s })
  | .PLAN_APPROVED p, .spec_created =>
      applyStep ctx .plan_approved ev ts (fun c => { c with plan := some p })
  | .CODE_GENERATED fs, .plan_approved =>
      applyStep ctx .code_generated ev ts
        (fun c => { c with generatedFiles := c.generatedFiles ++ fs })
  | .CODE_GENERATED fs, .fix_applied =>
      applyStep ctx .code_generated ev ts
        (fun c => { c with generatedFiles := c.generatedFiles ++ fs })
  | .REVIEW_DONE true fb, .code_generated =>
      applyStep ctx .review_done ev ts
        (fun c => { c with reviewFeedback := some fb })
  | .REVIEW_DONE false fb, .code_generated =>
      if ctx.maxIterations ≤ ctx.iteration then
        .error (.iterationLimit ctx.iteration ctx.maxIterations)
      else
        applyStep ctx .review_rejected ev ts
          (fun c => { c with reviewFeedback := some fb, iteration := c.iteration + 1 })
  | .TESTS_WRITTEN _, .review_done =>
      applyStep ctx .tests_written ev ts id
  | .TESTS_PASSED, .tests_written =>
      applyStep ctx .tests_passed ev ts id
  | .TESTS_FAILED f, .tests_written =>
      applyStep ctx .tests_failed ev ts
        (fun c => { c with testFailures := some f })
  | .FIX_APPLIED fs, .review_rejected =>
      if ctx.maxIterations ≤ ctx.iteration then
        .error (.iterationLimit ctx.iteration ctx.maxIterations)
      else
        applyStep ctx .fix_applied ev ts
          (fun c => { c with generatedFiles := c.generatedFiles ++ fs,
                             iteration := c.iteration + 1 })
  | .FIX_APPLIED fs, .tests_failed =>
      if ctx.maxIterations ≤ ctx.iteration then
        .error (.iterationLimit ctx.iteration ctx.maxIterations)
      else
        applyStep ctx .fix_applied ev ts
          (fun c => { c with generatedFiles := c.generatedFiles ++ fs,
                             iteration := c.iteration + 1 })
  | .QA_APPROVED, .tests_passed =>
      applyStep ctx .qa_approved ev ts id
  | .QA_REJECTED _, .tests_passed =>
      applyStep ctx .qa_rejected ev ts id
  | .ABORT _, s =>
      if terminalState s then
        .error (.invalidTransition ctx.state (eventName ev))
      else
        applyStep ctx .failed ev ts id
  | _, _ =>
      .error (.invalidTransition ctx.state (eventName ev))

/-- The (state, event) pairs listed in the section 4.1 transition table. -/
def validPair : WState → WEvent → Bool
  | .idle, .SPEC_READY _ => true
  | .spec_created, .PLAN_APPROVED _ => true
  | .plan_approved, .CODE_GENERATED _ => true
  | .fix_applied, .CODE_GENERATED _ => true
  | .code_generated, .REVIEW_DONE _ _ => true
  | .review_done, .TESTS_WRITTEN _ => true
  | .tests_written, .TESTS_PASSED => true
  | .tests_written, .TESTS_FAILED _ => true
  | .review_rejected, .FIX_APPLIED _ => true
  | .tests_failed, .FIX_APPLIED _ => true
  | .tests_passed, .QA_APPROVED => true
  | .tests_passed, .QA_REJECTED _ => true
  | s, .ABORT _ => !terminalState s
  | _, _ => false

/-- Target state of each listed (state, event) pair of the section 4.1 table
(junk value `failed` elsewhere, which is never relied upon). -/
def nextState : WState → WEvent → WState
  | .idle, .SPEC_READY _ => .spec_created
  | .spec_created, .PLAN_APPROVED _ => .plan_approved
  | .plan_approved, .CODE_GENERATED _ => .code_generated
  | .fix_applied, .CODE_GENERATED _ => .code_generated
  | .code_generated, .REVIEW_DONE true _ => .review_done
  | .code_generated, .REVIEW_DONE false _ => .review_rejected
  | .review_done, .TESTS_WRITTEN _ => .tests_written
  | .tests_written, .TESTS_PASSED => .tests_passed
  | .tests_written, .TESTS_FAILED _ => .tests_failed
  | .review_rejected, .FIX_APPLIED _ => .fix_applied
  | .tests_failed, .FIX_APPLIED _ => .fix_applied
  | .tests_passed, .QA_APPROVED => .qa_approved
  | .tests_passed, .QA_REJECTED _ => .qa_rejected
  | _, .ABORT _ => .failed
  | _, _ => .failed

/-- Events that increment `iteration`: a rejecting `REVIEW_DONE` and
`FIX_APPLIED`. -/
def increments : WEvent → Bool
  | .REVIEW_DONE false _ => true
  | .FIX_APPLIED _ => true
  | _ => false

end Engine


namespace JsMap

/-- Lookup in a JavaScript `Map` modelled as an insertion-ordered
association list. -/
def get (l : List (String × α)) (k : String) : Option α :=
  match l with
  | [] => none
  | (k', v) :: rest => if k' = k then some v else get rest k

/-- `Map.set`: update in place when the key exists (keeping its insertion
position), append otherwise. -/
def set (l : List (String × α)) (k : String) (v : α) : List (String × α) :=
  match l with
  | [] => [(k, v)]
  | (k', v') :: rest => if k' = k then (k, v) :: rest else (k', v') :: set rest k v

/-- `Map.delete`. -/
def del (l : List (String × α)) (k : String) : List (String × α) :=
  match l with
  | [] => []
  | (k', v') :: rest => if k' = k then rest else (k', v') :: del rest k

/-- `Map.has`. -/
def hasKey (l : List (String × α)) (k : String) : Bool :=
  (get l k).isSome

/-- The shared shape of `evictLRU` / `evictOldestIdle`: scan the map in
insertion order, remembering the key with the strictly smallest stamp among
eligible entries (strict comparison keeps the earliest-inserted on ties). -/
def selectMin (el : α → Bool) (stamp : α → Int) :
    List (String × α) → Option (String × Int) → Option (String × Int)
  | [], best => best
  | (k, v) :: rest, best =>
      if el v then
        match best with
        | none => selectMin el stamp rest (some (k, stamp v))
        | some (k0, t0) =>
            if stamp v < t0 then selectMin el stamp rest (some (k, stamp v))
            else selectMin el stamp rest (some (k0, t0))
      else selectMin el stamp rest best

/-- `(k, v)` is the earliest-inserted eligible entry attaining the minimal
stamp: everything before it that is eligible is strictly larger, everything
after it is at least as large. -/
def FirstMinBy (el : α → Bool) (stamp : α → Int)
    (l : List (String × α)) (k : String) (v : α) : Prop :=
  ∃ l1 l2, l = l1 ++ (k, v) :: l2 ∧ el v = true ∧
    (∀ p ∈ l1, el p.2 = true → stamp v < stamp p.2) ∧
    (∀ p ∈ l2, el p.2 = true → stamp v ≤ stamp p.2)

end JsMap

namespace Cache

/-- Cache entry with metadata (response-cache.ts). -/
structure CacheEntry (T : Type) where
  value : T
  createdAt : Int
  lastAccessed : Int
  accessCount : Nat
  deriving DecidableEq, Repr

/-- The `ResponseCache` state: configuration plus the backing map and the
hit/miss/eviction counters. -/
structure ResponseCache (T : Type) where
  maxSize : Nat
  ttl : Int
  cache : List (String × CacheEntry T) := []
  hits : Nat := 0
  misses : Nat := 0
  evictions : Nat := 0
  deriving DecidableEq, Repr

/-- Cache statistics, as reported by `getStats`. -/
structure CacheStats where
  size : Nat
  hits : Nat
  misses : Nat
  hitRate : ℚ
  evictions : Nat
  deriving DecidableEq, Repr

/-- `isExpired`: strictly more than `ttl` elapsed since creation. -/
def isExpired (c : ResponseCache T) (entry : CacheEntry T) (now : Int) : Bool :=
  c.ttl < now - entry.createdAt

/-- `ResponseCache.get`: miss on absence; expiry is discovered here and the
entry deleted; a hit refreshes `lastAccessed` and bumps `accessCount`. -/
def get (c : ResponseCache T) (key : String) (now : Int) :
    Option T × ResponseCache T :=
  match JsMap.get c.cache key with
  | none => (none, { c with misses := c.misses + 1 })
  | some entry =>
      if isExpired c entry now then
        (none, { c with cache := JsMap.del c.cache key, misses := c.misses + 1 })
      else
        (some entry.value,
         { c with
             cache := JsMap.set c.cache key
               { entry with lastAccessed := now, accessCount := entry.accessCount + 1 },
             hits := c.hits + 1 })

/-- `evictLRU`: drop the entry with the smallest `lastAccessed`, scanning in
insertion order with a strict comparison (earliest-inserted wins ties).
The source guards the deletion with `if (lruKey)`, a JS truthiness test:
when the selected key is the empty string (falsy) nothing is evicted. -/
def evictLRU (c : ResponseCache T) : ResponseCache T :=
  match JsMap.selectMin (fun _ => true) (fun e => e.lastAccessed) c.cache none with
  | none => c
  | some (lruKey, _) =>
      if lruKey = "" then c
      else { c with cache := JsMap.del c.cache lruKey, evictions := c.evictions + 1 }

/-- `ResponseCache.set`: evict the LRU entry first when at capacity and the
key is new; an existing entry keeps its `createdAt` and `accessCount` and
only gets a new value and `lastAccessed`. -/
def set (c : ResponseCache T) (key : String) (value : T) (now : Int) :
    ResponseCache T :=
  let c1 := if c.maxSize ≤ c.cache.length ∧ JsMap.hasKey c.cache key = false
    then evictLRU c else c
  let entry : CacheEntry T :=
    match JsMap.get c1.cache key with
    | some existing =>
        { existing with value := value, lastAccessed := now }
    | none =>
        { value := value, createdAt := now, lastAccessed := now, accessCount := 0 }
  { c1 with cache := JsMap.set c1.cache key entry }

/-- `getStats`. -/
def getStats (c : ResponseCache T) : CacheStats :=
  let total := c.hits + c.misses
  { size := c.cache.length, hits := c.hits, misses := c.misses,
    hitRate := if 0 < total then (c.hits : ℚ) / (total : ℚ) else 0,
    evictions := c.evictions }

end Cache

/-- A context at the iteration limit, sitting in `code_generated`. -/
def c1cexCtx : Engine.WorkflowContext :=
  { task := "t", state := .code_generated, iteration := 2, maxIterations := 2 }

/-- The context produced by SPEC_READY from a fresh context. -/
def c2okCtx : Engine.WorkflowContext :=
  { task := "t", state := .spec_created, iteration := 0, maxIterations := 5,
    spec := some "s", history := [⟨.idle, .spec_created, "SPEC_READY", 0⟩] }

/-- A context in `review_rejected` already at the iteration limit. -/
def c2guardCtx : Engine.WorkflowContext :=
  { task := "t", state := .review_rejected, iteration := 1, maxIterations := 1 }

/-- A context in `review_rejected` one step below the limit: the incrementing
`FIX_APPLIED` reaches `maxIterations` and still succeeds. -/
def c2cexCtx : Engine.WorkflowContext :=
  { task := "t", state := .review_rejected, iteration := 1, maxIterations := 2 }


/-- An empty cache with `ttl = 10`. -/
def c6cexCache : Cache.ResponseCache String := { maxSize := 100, ttl := 10 }

/-- An empty cache used by the C6 witness. -/
def c6wCache : Cache.ResponseCache String := { maxSize := 100, ttl := 10 }

/-- A cache holding one entry created at time 0, used by the C6 witness. -/
def c6wCache2 : Cache.ResponseCache String :=
  { maxSize := 100, ttl := 10, cache := [("k", ⟨"old", 0, 0, 0⟩)] }

/-- A full cache (two entries, `maxSize = 2`) whose entries tie on
`lastAccessed`. -/
def c7wCache : Cache.ResponseCache String :=
  { maxSize := 2, ttl := 1000,
    cache := [("a", ⟨"x", 0, 5, 0⟩), ("b", ⟨"y", 0, 5, 0⟩)] }

/-- A full one-entry cache whose only key is the empty string: the JS
truthiness guard in `evictLRU` then skips eviction. -/
def c7cexCache : Cache.ResponseCache String :=
  { maxSize := 1, ttl := 1000, cache := [("", ⟨"x", 0, 5, 0⟩)] }

/-- A cache holding one entry created at time 0 with `accessCount = 3`. -/
def c9wCache : Cache.ResponseCache String :=
  { maxSize := 100, ttl := 10, cache := [("k", ⟨"v1", 0, 0, 3⟩)] }

namespace Pool

/-- A pooled connection (connection-pool.ts). The `AbortController` is
modelled by a numeric identity drawn from the pool's `nextController`
counter; aborting a controller records its identity in `aborted`. -/
structure PooledConnection where
  controller : Nat
  createdAt : Int
  lastUsed : Int
  inUse : Bool
  deriving DecidableEq, Repr

/-- The `ConnectionPool` state: configuration, the keyed connection map, the
fresh-controller counter and the set of aborted controllers. -/
structure ConnectionPool where
  maxConnections : Nat
  idleTimeout : Int
  maxLifetime : Int
  connections : List (String × PooledConnection) := []
  nextController : Nat := 0
  aborted : List Nat := []
  deriving DecidableEq, Repr

/-- `isConnectionValid`: young enough and recently used enough. -/
def isConnectionValid (p : ConnectionPool) (conn : PooledConnection) (now : Int) : Bool :=
  decide (now - conn.createdAt < p.maxLifetime) &&
    decide (now - conn.lastUsed < p.idleTimeout)

/-- Body of the `if (conn)` block of `evictOldestIdle`: abort the chosen
connection's controller and delete the entry. -/
def evictKey (p : ConnectionPool) (oldestKey : String) : ConnectionPool :=
  match JsMap.get p.connections oldestKey with
  | none => p
  | some conn =>
      { p with connections := JsMap.del p.connections oldestKey,
               aborted := p.aborted ++ [conn.controller] }

/-- `evictOldestIdle`: abort and remove the idle entry with the smallest
`lastUsed`, scanning in insertion order with a strict comparison; a no-op if
every entry is in use. The source guards the eviction with `if (oldestKey)`,
a JS truthiness test: when the selected key is the empty string (falsy)
nothing is evicted. -/
def evictOldestIdle (p : ConnectionPool) : ConnectionPool :=
  match JsMap.selectMin (fun c => !c.inUse) (fun c => c.lastUsed)
      p.connections none with
  | none => p
  | some (oldestKey, _) =>
      if oldestKey = "" then p else evictKey p oldestKey

/-- The tail of `acquire`: evict if at capacity, then create and insert a
fresh in-use connection under `key` (overwriting any entry already there). -/
def acquireNew (p : ConnectionPool) (key : String) (now : Int) :
    ConnectionPool × Nat :=
  let p1 := if p.maxConnections ≤ p.connections.length then evictOldestIdle p else p
  let c := p1.nextController
  ({ p1 with connections := JsMap.set p1.connections key ⟨c, now, now, true⟩,
             nextController := c + 1 }, c)

/-- `ConnectionPool.acquire`: reuse a valid idle entry for `key`; delete an
invalid idle entry first; otherwise fall through to capacity check plus
fresh creation. Returns the new pool and the controller handed out. -/
def acquire (p : ConnectionPool) (key : String) (now : Int) :
    ConnectionPool × Nat :=
  match JsMap.get p.connections key with
  | some existing =>
      if existing.inUse then acquireNew p key now
      else if isConnectionValid p existing now then
        ({ p with
             connections := JsMap.set p.connections key
               ({ existing with inUse := true, lastUsed := now }) },
         existing.controller)
      else acquireNew { p with connections := JsMap.del p.connections key } key now
  | none => acquireNew p key now

/-- `ConnectionPool.release`: mark idle and stamp `lastUsed`. -/
def release (p : ConnectionPool) (key : String) (now : Int) : ConnectionPool :=
  match JsMap.get p.connections key with
  | none => p
  | some conn =>
      { p with
          connections := JsMap.set p.connections key
            ({ conn with inUse := false, lastUsed := now }) }

end Pool

/-- A pool bounded at one connection. -/
def c3cexPool : Pool.ConnectionPool :=
  { maxConnections := 1, idleTimeout := 60000, maxLifetime := 300000 }

/-- A full pool (capacity 2) with one in-use and one idle entry. -/
def c3wPool : Pool.ConnectionPool :=
  { maxConnections := 2, idleTimeout := 60000, maxLifetime := 300000,
    connections := [("a", ⟨0, 0, 10, false⟩), ("b", ⟨1, 0, 20, true⟩)],
    nextController := 2 }

/-- A pool holding a single in-use connection under key "k". -/
def c10wPool : Pool.ConnectionPool :=
  { maxConnections := 10, idleTimeout := 60000, maxLifetime := 300000,
    connections := [("k", ⟨0, 0, 0, true⟩)], nextController := 1 }

namespace Runner

/-- JS `String.prototype.includes` as used by the runner's marker checks. -/
def strIncludes (s sub : String) : Bool :=
  decide (sub.toList <:+: s.toList)

/-- The slice of `AppConfig` the runner loop reads, plus the external
file-writer collaborator (section 6: returns a path list, never throws). -/
structure RunnerConfig where
  maxIterations : Nat
  autoRunTests : Bool
  auto : Bool
  humanApproval : Engine.WState → Bool
  parseAndWriteFiles : String → List String

/-- Outcome of one agent invocation (`agent.execute` /
`agent.executeStreaming`): either its textual output or a raised
non-workflow error (provider errors, timeouts, ...). -/
inductive AgentOutcome
  | success (content : String)
  | failure (msg : String)

/-- The human-approval decision. -/
inductive Decision
  | approve | retry | abort
  deriving DecidableEq, Repr

/-- Oracle for the externally-determined pieces of each loop iteration:
the agent invocation outcome, the test-runner result and the approval
decision at step `i`. -/
structure StepOracle where
  outcome : Nat → AgentOutcome
  testResult : Nat → Bool × String
  decision : Nat → Decision

/-- `applyAgentOutput`: map an agent's raw text to transition events,
following runner.ts role by role (architect fires SPEC_READY then
PLAN_APPROVED; coder/fixer/tester parse files with a sentinel fallback;
reviewer and judge scan for markers; tester optionally runs tests).
`WorkflowError`s raised by `transition` propagate. -/
def applyAgentOutput (cfg : RunnerConfig) (orc : StepOracle) (i : Nat)
    (ctx : Engine.WorkflowContext) (role : Engine.AgentRole) (content : String) :
    Except Engine.WorkflowError Engine.WorkflowContext :=
  match role with
  | .architect =>
      if ctx.state = .idle then do
        let c1 ← Engine.transition ctx (.SPEC_READY content) (i : Int)
        Engine.transition c1 (.PLAN_APPROVED content) (i : Int)
      else .ok ctx
  | .coder =>
      let files := cfg.parseAndWriteFiles content
      Engine.transition ctx
        (.CODE_GENERATED (if 0 < files.length then files else ["(no files parsed)"]))
        (i : Int)
  | .reviewer =>
      let upper := content.toUpper
      let reviewApproved := strIncludes upper "APPROVE" &&
        !(strIncludes upper "REQUEST_CHANGES") && !(strIncludes upper "REJECT")
      Engine.transition ctx (.REVIEW_DONE reviewApproved content) (i : Int)
  | .tester => do
      let testFiles := cfg.parseAndWriteFiles content
      let c1 ← Engine.transition ctx
        (.TESTS_WRITTEN
          (if 0 < testFiles.length then testFiles else ["(no test files parsed)"]))
        (i : Int)
      if cfg.autoRunTests then
        if (orc.testResult i).1 then Engine.transition c1 .TESTS_PASSED (i : Int)
        else Engine.transition c1 (.TESTS_FAILED (orc.testResult i).2) (i : Int)
      else Engine.transition c1 .TESTS_PASSED (i : Int)
  | .fixer => do
      let fixedFiles := cfg.parseAndWriteFiles content
      let fs := if 0 < fixedFiles.length then fixedFiles else ["(no files parsed)"]
      let c1 ← Engine.transition ctx (.FIX_APPLIED fs) (i : Int)
      Engine.transition c1 (.CODE_GENERATED fs) (i : Int)
  | .judge =>
      let passed := strIncludes content.toUpper "PASS" &&
        !(strIncludes content.toUpper "FAIL")
      if passed then Engine.transition ctx .QA_APPROVED (i : Int)
      else Engine.transition ctx (.QA_REJECTED content) (i : Int)

/-- The inner try/catch of the loop body: a raised agent error is converted
into an `ABORT` transition; a `WorkflowError` from `applyAgentOutput`
propagates (runner.ts rethrows `WorkflowError` from the inner catch). -/
def runStep (cfg : RunnerConfig) (orc : StepOracle) (i : Nat)
    (ctx : Engine.WorkflowContext) (role : Engine.AgentRole) :
    Except Engine.WorkflowError Engine.WorkflowContext :=
  match orc.outcome i with
  | .success content => applyAgentOutput cfg orc i ctx role content
  | .failure msg => Engine.transition ctx (.ABORT (some msg)) (i : Int)

/-- `ABORT` applied to a context; the fallback arm is unreachable because
the gate only aborts non-terminal contexts, from which `ABORT` is legal. -/
def abortOrSelf (ctx : Engine.WorkflowContext) (reason : String) (ts : Int) :
    Engine.WorkflowContext :=
  match Engine.transition ctx (.ABORT (some reason)) ts with
  | .ok c => c
  | .error _ => ctx

/-- The human-approval gate at the end of each iteration (skipped in
autonomous mode, for states not requiring approval, and for terminal
contexts). -/
def applyGate (cfg : RunnerConfig) (orc : StepOracle) (i : Nat)
    (ctx1 : Engine.WorkflowContext) : Engine.WorkflowContext :=
  if cfg.auto = false && cfg.humanApproval ctx1.state
      && !(Engine.isTerminal ctx1) then
    match orc.decision i with
    | .abort => abortOrSelf ctx1 "User aborted" (i : Int)
    | _ => ctx1
  else ctx1

/-- Result of the main while-loop: either a normal exit or a
`WorkflowError` escaping it (to be handled by the outer catch), paired
with the context current at that moment. -/
inductive LoopResult
  | done (ctx : Engine.WorkflowContext)
  | errored (ctx : Engine.WorkflowContext) (e : Engine.WorkflowError)

/-- The `while (!isTerminal(ctx))` loop of `runWorkflow`, fuelled; `i`
numbers the iterations for the oracle. -/
def runLoop (cfg : RunnerConfig) (orc : StepOracle) :
    Nat → Nat → Engine.WorkflowContext → LoopResult
  | 0, _, ctx => .done ctx
  | fuel+1, i, ctx =>
      if Engine.isTerminal ctx then .done ctx
      else
        match Engine.getNextAgent ctx with
        | none => .done ctx
        | some role =>
            match runStep cfg orc i ctx role with
            | .error e => .errored ctx e
            | .ok ctx1 => runLoop cfg orc fuel (i+1) (applyGate cfg orc i ctx1)

/-- A printable message for a workflow error (`String(err)`). -/
def errorMessage : Engine.WorkflowError → String
  | .invalidTransition _ _ => "invalid transition"
  | .iterationLimit _ _ => "iteration limit reached"

/-- `runWorkflow`: build the initial context, run the loop, and apply the
outer catch (convert an escaped error into `ABORT` when the context is not
yet terminal). An `.error` result models `runWorkflow` itself throwing. -/
def runWorkflow (cfg : RunnerConfig) (orc : StepOracle) (fuel : Nat)
    (task : String) : Except Engine.WorkflowError Engine.WorkflowContext :=
  let ctx0 := Engine.createWorkflowContext task cfg.maxIterations
  match runLoop cfg orc fuel 0 ctx0 with
  | .done c => .ok c
  | .errored c e =>
      if Engine.isTerminal c then .ok c
      else Engine.transition c (.ABORT (some (errorMessage e))) (fuel : Int)

end Runner

namespace Queue

/-- Task status as tracked by the queue. -/
inductive TaskStatus
  | pending | running | completed | failed | skipped
  deriving DecidableEq, Repr

/-- A queue item after processing (task-queue.ts `QueuedTask`). -/
structure QueuedTask where
  task : String
  status : TaskStatus
  result : Option Engine.WorkflowContext := none
  error : Option String := none
  duration : Option Int := none
  deriving DecidableEq, Repr

/-- Outcome of `runWorkflow` for one task: a returned final context or a
thrown error. -/
inductive WorkflowResult
  | returns (ctx : Engine.WorkflowContext)
  | throws (msg : String)

/-- Oracle giving the workflow outcome and measured duration of task `i`. -/
structure QueueOracle where
  run : Nat → WorkflowResult
  duration : Nat → Int

/-- Whether task `i` counts as a failure for the stop-on-failure flag:
its workflow ended in `failed` or threw. -/
def failedOutcome (orc : QueueOracle) (i : Nat) : Bool :=
  match orc.run i with
  | .returns ctx => ctx.state = .failed
  | .throws _ => true

/-- The body of one queue iteration: run the workflow and record status,
result, error and duration exactly as task-queue.ts does. -/
def processItem (orc : QueueOracle) (i : Nat) (t : String) : QueuedTask :=
  match orc.run i with
  | .returns ctx =>
      if ctx.state = .failed then
        { task := t, status := .failed, result := some ctx,
          error := some "Workflow ended in failed state",
          duration := some (orc.duration i) }
      else
        { task := t, status := .completed, result := some ctx,
          duration := some (orc.duration i) }
  | .throws msg =>
      { task := t, status := .failed, error := some msg,
        duration := some (orc.duration i) }

/-- A queued task marked skipped: nothing else is recorded and its
workflow is never started. -/
def skippedItem (t : String) : QueuedTask :=
  { task := t, status := .skipped }

/-- `runTaskQueue` over the remaining tasks, starting at index `i`.
Returns the processed queue and the list of indices whose workflow was
actually invoked, in invocation order. -/
def runTaskQueue (orc : QueueOracle) (stopOnFailure : Bool) :
    Nat → List String → List QueuedTask × List Nat
  | _, [] => ([], [])
  | i, t :: rest =>
      let item := processItem orc i t
      if stopOnFailure && failedOutcome orc i then
        (item :: rest.map skippedItem, [i])
      else
        let r := runTaskQueue orc stopOnFailure (i+1) rest
        (item :: r.1, i :: r.2)

/-- The queue entries produced by a failure-free prefix. -/
def processedPrefix (orc : QueueOracle) : Nat → List String → List QueuedTask
  | _, [] => []
  | i, t :: rest => processItem orc i t :: processedPrefix orc (i+1) rest

end Queue

/-- Runner config used by the C5 witness: autonomous mode, no test runs. -/
def c5wCfg : Runner.RunnerConfig :=
  { maxIterations := 5, autoRunTests := false, auto := true,
    humanApproval := fun _ => false, parseAndWriteFiles := fun _ => [] }

/-- Oracle whose every agent invocation raises. -/
def c5wOracle : Runner.StepOracle :=
  { outcome := fun _ => .failure "provider unreachable",
    testResult := fun _ => (true, ""),
    decision := fun _ => .approve }

/-- A workflow context ending successfully (used by the C8 witness). -/
def c8okCtx : Engine.WorkflowContext :=
  { task := "t1", state := .qa_approved, iteration := 0, maxIterations := 5 }

/-- A workflow context ending in `failed`. -/
def c8failCtx : Engine.WorkflowContext :=
  { task := "t2", state := .failed, iteration := 0, maxIterations := 5 }

/-- Queue oracle: task 0 succeeds, every later task fails. -/
def c8wOracle : Queue.QueueOracle :=
  { run := fun i => if i = 0 then .returns c8okCtx else .returns c8failCtx,
    duration := fun i => 100 + i }

namespace Optimizer

/-- A chat message (providers/types.ts). -/
structure ChatMessage where
  role : String
  content : String
  deriving DecidableEq, Repr

/-- The optimizer's merged configuration (context-optimizer.ts defaults:
maxTokens 100000, minRecentTokens 20000, keepSystemMessages true,
tokensPerChar 1/4, messageOverhead 10). `tokensPerChar` is a rational,
modelling the JS float (0.25 is exact in binary floating point). -/
structure ContextOptimizerOptions where
  maxTokens : Int
  minRecentTokens : Int
  keepSystemMessages : Bool
  tokensPerChar : ℚ
  messageOverhead : Int
  deriving DecidableEq, Repr

/-- Result of `optimize`. -/
structure OptimizedContext where
  messages : List ChatMessage
  tokenCount : Int
  messagesRemoved : Int
  deriving DecidableEq, Repr

/-- A scored message, transient per pass. -/
structure MessageScore where
  index : Nat
  score : ℚ
  tokens : Int
  deriving DecidableEq, Repr

/-- Token estimate of a single message:
`overhead + ceil(content.length * tokensPerChar)`. -/
def countMsg (o : ContextOptimizerOptions) (m : ChatMessage) : Int :=
  o.messageOverhead + Int.ceil ((m.content.length : ℚ) * o.tokensPerChar)

/-- `countTokens`: the loop summing per-message estimates. -/
def countTokens (o : ContextOptimizerOptions) (messages : List ChatMessage) : Int :=
  (messages.map (countMsg o)).sum

/-- Whether a message goes into the retained-system bucket. -/
def isSystemKept (o : ContextOptimizerOptions) (m : ChatMessage) : Bool :=
  decide (m.role = "system") && o.keepSystemMessages

/-- `calculateMessageScore`: the role/keyword base score plus the recency
and length bonuses, in exact rational arithmetic. -/
def calculateMessageScore (m : ChatMessage) (index total : Nat) : ℚ :=
  let base : ℚ :=
    if m.role = "system" then 100
    else if m.role = "assistant" && Runner.strIncludes m.content.toLower "error" then 80
    else if m.role = "user" && decide (500 < m.content.length) then 70
    else 0
  base + ((index : ℚ) + 1) / (total : ℚ) * 50 +
    min ((m.content.length : ℚ) / 1000) 1 * 20

/-- `scoreMessages`: index, score and token count per message. -/
def scoreMessages (o : ContextOptimizerOptions) (messages : List ChatMessage) :
    List MessageScore :=
  messages.enum.map (fun p =>
    { index := p.1, score := calculateMessageScore p.2 p.1 messages.length,
      tokens := countMsg o p.2 })

/-- The backwards sliding-window loop, on the reversed message list:
take messages while the running total stays within `minRecent`. -/
def recentRev (o : ContextOptimizerOptions) (minRecent : Int) :
    Int → List ChatMessage → List ChatMessage
  | _, [] => []
  | acc, m :: rest =>
      if minRecent < acc + countMsg o m then []
      else m :: recentRev o minRecent (acc + countMsg o m) rest

/-- The greedy selection loop of `selectImportantMessages`: walk the sorted
list, skipping anything that would overflow the budget. -/
def greedyPick (avail : Int) : List MessageScore → Int → List MessageScore
  | [], _ => []
  | s :: rest, used =>
      if avail < used + s.tokens then greedyPick avail rest used
      else s :: greedyPick avail rest (used + s.tokens)

/-- Token sum of a list of scored messages. -/
def sumTokens (l : List MessageScore) : Int :=
  (l.map MessageScore.tokens).sum

/-- The stable descending sort by score (`sort((a, b) => b.score - a.score)`
on a stable JS engine). -/
def sortByScoreDesc (l : List MessageScore) : List MessageScore :=
  List.insertionSort (fun a b => b.score ≤ a.score) l

/-- The stable ascending re-sort by original index. -/
def sortByIdx (l : List MessageScore) : List MessageScore :=
  List.insertionSort (fun a b => a.index ≤ b.index) l

/-- `selectImportantMessages`: sort by descending score, greedily take what
fits, then restore chronological order. -/
def selectImportantMessages (avail : Int) (l : List MessageScore) :
    List MessageScore :=
  sortByIdx (greedyPick avail (sortByScoreDesc l) 0)

/-- `optimizeOtherMessages`: keep everything if it fits; otherwise retain
the trailing run within `minRecentTokens` plus the highest-scoring earlier
messages that fit the remaining budget, in chronological order. -/
def optimizeOtherMessages (o : ContextOptimizerOptions)
    (messages : List ChatMessage) (availableTokens : Int) : List ChatMessage :=
  if messages.length = 0 then []
  else if countTokens o messages ≤ availableTokens then messages
  else
    let scored := scoreMessages o messages
    let recentMessages := (recentRev o o.minRecentTokens 0 messages.reverse).reverse
    let remainingTokens := availableTokens - countTokens o recentMessages
    let important := selectImportantMessages remainingTokens
      (scored.take (scored.length - recentMessages.length))
    important.filterMap (fun s => messages.get? s.index) ++ recentMessages

/-- `applySlidingWindow`: separate retained system messages, then optimize
the rest into the remaining budget; if the system messages alone exhaust
the budget, fall back to the first system message only. -/
def applySlidingWindow (o : ContextOptimizerOptions)
    (messages : List ChatMessage) : OptimizedContext :=
  let systemMessages := messages.filter (fun m => isSystemKept o m)
  let otherMessages := messages.filter (fun m => !(isSystemKept o m))
  let availableTokens := o.maxTokens - countTokens o systemMessages
  if availableTokens ≤ 0 then
    { messages := systemMessages.take 1,
      tokenCount := countTokens o (systemMessages.take 1),
      messagesRemoved := (messages.length : Int) - 1 }
  else
    let finalMessages :=
      systemMessages ++ optimizeOtherMessages o otherMessages availableTokens
    { messages := finalMessages,
      tokenCount := countTokens o finalMessages,
      messagesRemoved := (messages.length : Int) - (finalMessages.length : Int) }

/-- `ContextOptimizer.optimize`: identity when the estimate already fits. -/
def optimize (o : ContextOptimizerOptions) (messages : List ChatMessage) :
    OptimizedContext :=
  if countTokens o messages ≤ o.maxTokens then
    { messages := messages, tokenCount := countTokens o messages,
      messagesRemoved := 0 }
  else
    applySlidingWindow o messages

end Optimizer

def c4cexOpts : Optimizer.ContextOptimizerOptions :=
  { maxTokens := 50, minRecentTokens := 1000, keepSystemMessages := true,
    tokensPerChar := 1/4, messageOverhead := 10 }

def c4cexMsg : Optimizer.ChatMessage := ⟨"user", "aaaa"⟩

def c4cexMsgs : List Optimizer.ChatMessage :=
  [c4cexMsg, c4cexMsg, c4cexMsg, c4cexMsg, c4cexMsg]

def c4wOpts : Optimizer.ContextOptimizerOptions :=
  { maxTokens := 50, minRecentTokens := 20, keepSystemMessages := true,
    tokensPerChar := 1/4, messageOverhead := 10 }

def c4wMsgs : List Optimizer.ChatMessage :=
  [c4cexMsg, c4cexMsg, c4cexMsg, c4cexMsg, c4cexMsg]

def c4wMsgsFit : List Optimizer.ChatMessage := [c4cexMsg, c4cexMsg]

-- ══ Supporting lemmas and claim theorems ══

namespace JsMap

theorem get_set_self (l : List (String × α)) (k : String) (v : α) :
    get (set l k v) k = some v := by
  induction l with
  | nil => simp [get, set]
  | cons p rest ih =>
      obtain ⟨k', v'⟩ := p
      by_cases h : k' = k
      · simp [get, set, h]
      · simp [get, set, h, ih]

theorem get_set_ne (l : List (String × α)) (k k2 : String) (v : α) (hne : k2 ≠ k) :
    get (set l k v) k2 = get l k2 := by
  have hne2 : ¬ k = k2 := fun h => hne h.symm
  induction l with
  | nil => simp [get, set, hne2]
  | cons p rest ih =>
      obtain ⟨k', v'⟩ := p
      by_cases h : k' = k
      · subst h
        simp [get, set, hne2]
      · simp only [set, if_neg h, get]
        by_cases h2 : k' = k2 <;> simp [h2, ih]

theorem length_set (l : List (String × α)) (k : String) (v : α) :
    (set l k v).length = if hasKey l k then l.length else l.length + 1 := by
  induction l with
  | nil => simp [set, hasKey, get]
  | cons p rest ih =>
      obtain ⟨k', v'⟩ := p
      by_cases h : k' = k <;>
        simp [set, hasKey, get, h, ih, Option.isSome] <;>
        split <;> simp_all [hasKey]

theorem length_del_of_get (l : List (String × α)) (k : String) (v : α)
    (h : get l k = some v) : (del l k).length + 1 = l.length := by
  induction l with
  | nil => simp [get] at h
  | cons p rest ih =>
      obtain ⟨k', v'⟩ := p
      by_cases hk : k' = k
      · simp [del, hk]
      · simp only [get, if_neg hk] at h
        simp [del, hk, ih h]

theorem get_del_none (l : List (String × α)) (k k2 : String)
    (h : get l k = none) : get (del l k2) k = none := by
  induction l with
  | nil => simp [del, get]
  | cons p rest ih =>
      obtain ⟨k', v'⟩ := p
      by_cases hk : k' = k
      · simp [get, hk] at h
      · simp only [get, if_neg hk] at h
        by_cases h2 : k' = k2
        · simpa [del, h2] using h
        · simp [del, h2, get, hk, ih h]

theorem selectMin_acc_spec (el : α → Bool) (stamp : α → Int) :
    ∀ (l : List (String × α)) (k0 : String) (t0 : Int) (k : String) (t : Int),
      selectMin el stamp l (some (k0, t0)) = some (k, t) →
      (k = k0 ∧ t = t0 ∧ ∀ p ∈ l, el p.2 = true → t0 ≤ stamp p.2) ∨
      (∃ l1 v l2, l = l1 ++ (k, v) :: l2 ∧ el v = true ∧ stamp v = t ∧ t < t0 ∧
        (∀ p ∈ l1, el p.2 = true → t < stamp p.2) ∧
        (∀ p ∈ l2, el p.2 = true → t ≤ stamp p.2)) := by
  intro l
  induction l with
  | nil =>
      intro k0 t0 k t h
      simp [selectMin] at h
      exact Or.inl ⟨h.1.symm, h.2.symm, by simp⟩
  | cons p rest ih =>
      intro k0 t0 k t h
      obtain ⟨k1, v1⟩ := p
      by_cases he : el v1
      · simp only [selectMin, he, if_true] at h
        by_cases hlt : stamp v1 < t0
        · rw [if_pos hlt] at h
          rcases ih k1 (stamp v1) k t h with ⟨hk, ht, hall⟩ | ⟨l1, v, l2, hdec, hev, hst, hlt2, h1, h2⟩
          · subst hk; subst ht
            exact Or.inr ⟨[], v1, rest, rfl, he, rfl, hlt, by simp, hall⟩
          · refine Or.inr ⟨(k1, v1) :: l1, v, l2, by simp [hdec], hev, hst, lt_trans hlt2 hlt, ?_, h2⟩
            intro p hp hep
            rcases List.mem_cons.mp hp with hh | hh
            · subst hh; exact hlt2
            · exact h1 p hh hep
        · rw [if_neg hlt] at h
          rcases ih k0 t0 k t h with ⟨hk, ht, hall⟩ | ⟨l1, v, l2, hdec, hev, hst, hlt2, h1, h2⟩
          · refine Or.inl ⟨hk, ht, ?_⟩
            intro p hp hep
            rcases List.mem_cons.mp hp with hh | hh
            · subst hh; exact le_of_not_lt hlt
            · exact hall p hh hep
          · refine Or.inr ⟨(k1, v1) :: l1, v, l2, by simp [hdec], hev, hst, hlt2, ?_, h2⟩
            intro p hp hep
            rcases List.mem_cons.mp hp with hh | hh
            · subst hh; exact lt_of_lt_of_le hlt2 (le_of_not_lt hlt)
            · exact h1 p hh hep
      · simp only [selectMin, he, if_false] at h
        rcases ih k0 t0 k t h with ⟨hk, ht, hall⟩ | ⟨l1, v, l2, hdec, hev, hst, hlt2, h1, h2⟩
        · refine Or.inl ⟨hk, ht, ?_⟩
          intro p hp hep
          rcases List.mem_cons.mp hp with hh | hh
          · subst hh; simp [he] at hep
          · exact hall p hh hep
        · refine Or.inr ⟨(k1, v1) :: l1, v, l2, by simp [hdec], hev, hst, hlt2, ?_, h2⟩
          intro p hp hep
          rcases List.mem_cons.mp hp with hh | hh
          · subst hh; simp [he] at hep
          · exact h1 p hh hep

theorem selectMin_none_spec (el : α → Bool) (stamp : α → Int) :
    ∀ (l : List (String × α)) (k : String) (t : Int),
      selectMin el stamp l none = some (k, t) →
      ∃ v, stamp v = t ∧ FirstMinBy el stamp l k v := by
  intro l
  induction l with
  | nil => intro k t h; simp [selectMin] at h
  | cons p rest ih =>
      intro k t h
      obtain ⟨k1, v1⟩ := p
      by_cases he : el v1
      · simp only [selectMin, he, if_true] at h
        rcases selectMin_acc_spec el stamp rest k1 (stamp v1) k t h with
          ⟨hk, ht, hall⟩ | ⟨l1, v, l2, hdec, hev, hst, hlt2, h1, h2⟩
        · subst hk; subst ht
          exact ⟨v1, rfl, [], rest, rfl, he, by simp, hall⟩
        · subst hst
          refine ⟨v, rfl, (k1, v1) :: l1, l2, by simp [hdec], hev, ?_, h2⟩
          intro p hp hep
          rcases List.mem_cons.mp hp with hh | hh
          · subst hh; exact hlt2
          · exact h1 p hh hep
      · simp only [selectMin, he, if_false] at h
        obtain ⟨v, hst, l1, l2, hdec, hev, h1, h2⟩ := ih k t h
        subst hst
        refine ⟨v, rfl, (k1, v1) :: l1, l2, by simp [hdec], hev, ?_, h2⟩
        intro p hp hep
        rcases List.mem_cons.mp hp with hh | hh
        · subst hh; simp [he] at hep
        · exact h1 p hh hep

theorem selectMin_acc_isSome (el : α → Bool) (stamp : α → Int) :
    ∀ (l : List (String × α)) (a : String × Int),
      (selectMin el stamp l (some a)).isSome := by
  intro l
  induction l with
  | nil => intro a; simp [selectMin]
  | cons p rest ih =>
      intro a
      obtain ⟨k1, v1⟩ := p
      obtain ⟨k0, t0⟩ := a
      by_cases he : el v1
      · simp only [selectMin, he, if_true]
        by_cases hlt : stamp v1 < t0 <;> simp [hlt, ih]
      · simp [selectMin, he, ih]

theorem selectMin_isSome_of_mem (el : α → Bool) (stamp : α → Int) :
    ∀ (l : List (String × α)), (∃ p ∈ l, el p.2 = true) →
      (selectMin el stamp l none).isSome := by
  intro l
  induction l with
  | nil => rintro ⟨p, hp, _⟩; simp at hp
  | cons q rest ih =>
      rintro ⟨p, hp, hep⟩
      obtain ⟨k1, v1⟩ := q
      by_cases he : el v1
      · simp only [selectMin, he, if_true]
        exact selectMin_acc_isSome el stamp rest _
      · simp only [selectMin, he, if_false]
        rcases List.mem_cons.mp hp with hh | hh
        · exfalso; subst hh; simp [he] at hep
        · exact ih ⟨p, hh, hep⟩

end JsMap

set_option maxHeartbeats 1000000 in
/-- C1 (amended): for every (state, event) pair listed in the section 4.1
transition table, provided the iteration guard passes (an incrementing event
requires the current `iteration` to be strictly below `maxIterations`),
`transition` succeeds, lands in the specified next state and appends exactly
one history entry; for every pair not listed it returns a `WorkflowError`.
Purity of the embedding makes "the input context is left unchanged" automatic
on failure. -/
theorem C1_transition_table (ctx : Engine.WorkflowContext) (ev : Engine.WEvent) (ts : Int) :
    (Engine.validPair ctx.state ev = true →
      (Engine.increments ev = true → ctx.iteration < ctx.maxIterations) →
      ∃ ctx', Engine.transition ctx ev ts = .ok ctx' ∧
        ctx'.state = Engine.nextState ctx.state ev ∧
        ctx'.history.length = ctx.history.length + 1) ∧
    (Engine.validPair ctx.state ev = false →
      ∃ e, Engine.transition ctx ev ts = .error e) := by
  obtain ⟨tk, st, it, mx, sp, pl, rf, tf, gf, hi⟩ := ctx
  constructor
  · cases ev
    case REVIEW_DONE approved fb =>
      cases approved <;> cases st <;> intro hv hg <;>
        first
          | exact ⟨_, rfl, rfl, by simp [Engine.applyStep]⟩
          | (simp only [Engine.transition]
             rw [if_neg (Nat.not_le.mpr (hg rfl))]
             exact ⟨_, rfl, rfl, by simp [Engine.applyStep]⟩)
          | exact nomatch hv
    all_goals cases st
    all_goals intro hv hg
    all_goals first
      | exact ⟨_, rfl, rfl, by simp [Engine.applyStep]⟩
      | (simp only [Engine.transition]
         rw [if_neg (Nat.not_le.mpr (hg rfl))]
         exact ⟨_, rfl, rfl, by simp [Engine.applyStep]⟩)
      | exact nomatch hv
  · cases ev
    case REVIEW_DONE approved fb =>
      cases approved <;> cases st <;> intro hv <;>
        first
          | exact ⟨_, rfl⟩
          | exact nomatch hv
    all_goals cases st
    all_goals intro hv
    all_goals first
      | exact ⟨_, rfl⟩
      | exact nomatch hv

/-- C1 witness: the amended theorem applied at a fresh context, once on the
listed pair (idle, SPEC_READY) and once on the unlisted pair
(idle, TESTS_PASSED). -/
theorem C1_transition_table_witness :
    (∃ ctx', Engine.transition (Engine.createWorkflowContext "t" 5) (.SPEC_READY "s") 0 = .ok ctx' ∧
        ctx'.state = Engine.nextState (Engine.createWorkflowContext "t" 5).state (.SPEC_READY "s") ∧
        ctx'.history.length = (Engine.createWorkflowContext "t" 5).history.length + 1) ∧
    (∃ e, Engine.transition (Engine.createWorkflowContext "t" 5) .TESTS_PASSED 0 = .error e) :=
  ⟨(C1_transition_table (Engine.createWorkflowContext "t" 5) (.SPEC_READY "s") 0).1 rfl
      (fun h => nomatch h),
   (C1_transition_table (Engine.createWorkflowContext "t" 5) .TESTS_PASSED 0).2 rfl⟩

/-- C1 counterexample: (code_generated, rejecting REVIEW_DONE) is listed in
the section 4.1 table, yet on a context whose iteration guard would be
violated (`iteration` already equal to `maxIterations`) the transition raises
a `WorkflowError` instead of producing `review_rejected`, refuting the claim
that every listed pair yields the specified next state. -/
theorem C1_listed_pair_raises :
    Engine.validPair c1cexCtx.state (.REVIEW_DONE false "bad") = true ∧
    Engine.transition c1cexCtx (.REVIEW_DONE false "bad") 0 =
      .error (.iterationLimit 2 2) :=
  ⟨rfl, rfl⟩

set_option maxHeartbeats 1000000 in
/-- C2 (amended): a successful `transition` increments `iteration` by exactly
1 when the event is a rejecting `REVIEW_DONE` or a `FIX_APPLIED` and leaves it
unchanged otherwise; and whenever such an incrementing event arrives with
`iteration` already at or beyond `maxIterations`, `transition` returns a
`WorkflowError` (the embedding is pure, so the input context is untouched).
The claim's "reach or exceed" error condition is refuted at the reach
boundary: see the counterexample. -/
theorem C2_iteration_increment (ctx : Engine.WorkflowContext) (ev : Engine.WEvent) (ts : Int) :
    (∀ ctx', Engine.transition ctx ev ts = .ok ctx' →
      ctx'.iteration =
        if Engine.increments ev then ctx.iteration + 1 else ctx.iteration) ∧
    (Engine.increments ev = true → ctx.maxIterations ≤ ctx.iteration →
      ∃ e, Engine.transition ctx ev ts = .error e) := by
  obtain ⟨tk, st, it, mx, sp, pl, rf, tf, gf, hi⟩ := ctx
  constructor
  · cases ev
    case REVIEW_DONE approved fb =>
      cases approved <;> cases st <;> intro ctx' h <;>
        first
          | (injection h with h2; subst h2; rfl)
          | (injection h)
          | (simp only [Engine.transition] at h
             split at h
             · injection h
             · injection h with h2; subst h2; rfl)
    all_goals cases st
    all_goals intro ctx' h
    all_goals first
      | (injection h with h2; subst h2; rfl)
      | (injection h)
      | (simp only [Engine.transition] at h
         split at h
         · injection h
         · injection h with h2; subst h2; rfl)
  · cases ev
    case REVIEW_DONE approved fb =>
      cases approved <;> cases st <;> intro hinc hge <;>
        first
          | exact ⟨_, rfl⟩
          | exact ⟨_, by simp only [Engine.transition]; rw [if_pos hge]⟩
          | exact nomatch hinc
    all_goals cases st
    all_goals intro hinc hge
    all_goals first
      | exact ⟨_, rfl⟩
      | exact ⟨_, by simp only [Engine.transition]; rw [if_pos hge]⟩
      | exact nomatch hinc

/-- C2 witness: the theorem applied to a concrete successful non-incrementing
transition (iteration stays 0) and to a concrete `FIX_APPLIED` at the
iteration limit (which errors). -/
theorem C2_iteration_increment_witness :
    (c2okCtx.iteration =
      if Engine.increments (.SPEC_READY "s") then
        (Engine.createWorkflowContext "t" 5).iteration + 1
      else (Engine.createWorkflowContext "t" 5).iteration) ∧
    ∃ e, Engine.transition c2guardCtx (.FIX_APPLIED ["f"]) 0 = .error e :=
  ⟨(C2_iteration_increment (Engine.createWorkflowContext "t" 5) (.SPEC_READY "s") 0).1
      c2okCtx rfl,
   (C2_iteration_increment c2guardCtx (.FIX_APPLIED ["f"]) 0).2 rfl (Nat.le_refl 1)⟩

/-- C2 counterexample: the claim says an incrementing event whose increment
would make `iteration` reach or exceed `maxIterations` raises; but at
`iteration = 1`, `maxIterations = 2` the increment exactly reaches the limit
and `FIX_APPLIED` still succeeds, landing at `iteration = maxIterations`.
The engine only raises once `iteration` is already at the limit. -/
theorem C2_reach_boundary_succeeds :
    c2cexCtx.iteration + 1 = c2cexCtx.maxIterations ∧
    ∃ ctx', Engine.transition c2cexCtx (.FIX_APPLIED ["f"]) 0 = .ok ctx' ∧
      ctx'.iteration = c2cexCtx.maxIterations :=
  ⟨rfl, _, rfl, rfl⟩

namespace JsMap

theorem get_of_hasKey (l : List (String × α)) (k : String)
    (h : hasKey l k = true) : ∃ v, get l k = some v := by
  unfold hasKey at h
  cases hg : get l k
  · rw [hg] at h; simp at h
  · exact ⟨_, rfl⟩

theorem get_eq_none_of_not_mem (l : List (String × α)) (k : String)
    (h : k ∉ l.map Prod.fst) : get l k = none := by
  induction l with
  | nil => simp [get]
  | cons p rest ih =>
      obtain ⟨k', v'⟩ := p
      simp only [List.map_cons, List.mem_cons] at h
      push_neg at h
      have : ¬ k' = k := fun hh => h.1 hh.symm
      simp [get, this, ih h.2]

theorem get_del_self (l : List (String × α)) (k : String)
    (hnd : (l.map Prod.fst).Nodup) : get (del l k) k = none := by
  induction l with
  | nil => simp [del, get]
  | cons p rest ih =>
      obtain ⟨k', v'⟩ := p
      simp only [List.map_cons, List.nodup_cons] at hnd
      by_cases hk : k' = k
      · subst hk
        simp only [del, if_pos rfl]
        exact get_eq_none_of_not_mem rest k' hnd.1
      · simp [del, hk, get, ih hnd.2]

theorem get_isSome_of_mem (l : List (String × α)) (k : String) (v : α)
    (h : (k, v) ∈ l) : ∃ w, get l k = some w := by
  induction l with
  | nil => simp at h
  | cons p rest ih =>
      obtain ⟨k', v'⟩ := p
      by_cases hk : k' = k
      · exact ⟨v', by simp [get, hk]⟩
      · rcases List.mem_cons.mp h with hh | hh
        · exact absurd (congrArg Prod.fst hh).symm hk
        · obtain ⟨w, hw⟩ := ih hh
          exact ⟨w, by simp [get, hk, hw]⟩

end JsMap

theorem evictLRU_get_none {T : Type} (c : Cache.ResponseCache T) (k : String)
    (h : JsMap.get c.cache k = none) :
    JsMap.get (Cache.evictLRU c).cache k = none := by
  unfold Cache.evictLRU
  cases hsel : JsMap.selectMin (fun _ => true) (fun e => e.lastAccessed) c.cache none with
  | none => simpa using h
  | some p =>
      obtain ⟨lk, t⟩ := p
      show JsMap.get (if lk = "" then c
        else { c with cache := JsMap.del c.cache lk,
                      evictions := c.evictions + 1 }).cache k = none
      by_cases hlk : lk = ""
      · rw [if_pos hlk]; exact h
      · rw [if_neg hlk]; exact JsMap.get_del_none c.cache k lk h

theorem evictLRU_ttl {T : Type} (c : Cache.ResponseCache T) :
    (Cache.evictLRU c).ttl = c.ttl := by
  unfold Cache.evictLRU
  cases JsMap.selectMin (fun _ => true) (fun e => e.lastAccessed) c.cache none with
  | none => rfl
  | some p =>
      obtain ⟨lk, t⟩ := p
      show (if lk = "" then c
        else { c with cache := JsMap.del c.cache lk,
                      evictions := c.evictions + 1 }).ttl = c.ttl
      by_cases hlk : lk = ""
      · rw [if_pos hlk]
      · rw [if_neg hlk]

theorem evictLRU_cache_eq {T : Type} (c : Cache.ResponseCache T) (ek : String) (t : Int)
    (hsel : JsMap.selectMin (fun _ => true) (fun (e : Cache.CacheEntry T) => e.lastAccessed)
      c.cache none = some (ek, t)) (hek : ek ≠ "") :
    (Cache.evictLRU c).cache = JsMap.del c.cache ek := by
  unfold Cache.evictLRU
  rw [hsel]
  show (if ek = "" then c
    else { c with cache := JsMap.del c.cache ek,
                  evictions := c.evictions + 1 }).cache = JsMap.del c.cache ek
  rw [if_neg hek]

theorem cache_set_of_present {T : Type} (c : Cache.ResponseCache T) (k : String)
    (v : T) (now : Int) (e : Cache.CacheEntry T)
    (he : JsMap.get c.cache k = some e) :
    Cache.set c k v now =
      { c with cache := JsMap.set c.cache k ⟨v, e.createdAt, now, e.accessCount⟩ } := by
  have hk : JsMap.hasKey c.cache k = true := by simp [JsMap.hasKey, he]
  simp only [Cache.set, hk, Bool.true_eq_false, and_false, if_false, he]

theorem cache_set_of_absent {T : Type} (c : Cache.ResponseCache T) (k : String)
    (v : T) (now : Int) (he : JsMap.get c.cache k = none) :
    Cache.set c k v now =
      (if c.maxSize ≤ c.cache.length then
        { Cache.evictLRU c with
            cache := JsMap.set (Cache.evictLRU c).cache k ⟨v, now, now, 0⟩ }
      else { c with cache := JsMap.set c.cache k ⟨v, now, now, 0⟩ }) := by
  have hk : JsMap.hasKey c.cache k = false := by simp [JsMap.hasKey, he]
  by_cases hcap : c.maxSize ≤ c.cache.length
  · have h1 : JsMap.get (Cache.evictLRU c).cache k = none := evictLRU_get_none c k he
    simp only [Cache.set, hk, hcap, and_self, if_true, if_pos hcap, h1]
  · simp only [Cache.set, hk, hcap, false_and, if_false, if_neg hcap, he]

/-- C6 counterexample: on a key holding a stale entry, `set` keeps the
original `createdAt`, so the immediately following `get` discovers the entry
expired and returns absent rather than the value just stored (ttl 10: first
write at time 0, overwrite and read at time 100). -/
theorem C6_set_get_not_roundtrip :
    (Cache.get (Cache.set (Cache.set c6cexCache "k" "v1" 0) "k" "v2" 100) "k" 100).1
      ≠ some "v2" := by decide

/-- C6 (amended): `set(k, v)` followed by an immediate `get(k)` returns `v`
provided any pre-existing entry for `k` is itself not yet expired (overwrites
keep the original `createdAt`); and once strictly more than `ttl` has elapsed
since an entry's creation, `get` returns absent, removes the entry, and the
reported size drops by one. -/
theorem C6_cache_roundtrip {T : Type} (c : Cache.ResponseCache T) (k : String) (v : T)
    (now now2 : Int) (httl : 0 ≤ c.ttl)
    (hnd : (c.cache.map Prod.fst).Nodup)
    (hfresh : ∀ e, JsMap.get c.cache k = some e → now - e.createdAt ≤ c.ttl) :
    (Cache.get (Cache.set c k v now) k now).1 = some v ∧
    (∀ e, JsMap.get c.cache k = some e → c.ttl < now2 - e.createdAt →
      (Cache.get c k now2).1 = none ∧
      (Cache.getStats (Cache.get c k now2).2).size + 1 = (Cache.getStats c).size ∧
      JsMap.hasKey ((Cache.get c k now2).2).cache k = false) := by
  constructor
  · cases hg : JsMap.get c.cache k with
    | some e =>
        rw [cache_set_of_present c k v now e hg]
        have hexp : ¬ (c.ttl < now - e.createdAt) := not_lt.mpr (hfresh e hg)
        simp [Cache.get, JsMap.get_set_self, Cache.isExpired, hexp]
    | none =>
        rw [cache_set_of_absent c k v now hg]
        by_cases hcap : c.maxSize ≤ c.cache.length
        · rw [if_pos hcap]
          have hexp : ¬ ((Cache.evictLRU c).ttl < 0) := by
            rw [evictLRU_ttl]; omega
          simp [Cache.get, JsMap.get_set_self, Cache.isExpired, hexp]
        · rw [if_neg hcap]
          have hexp : ¬ (c.ttl < 0) := by omega
          simp [Cache.get, JsMap.get_set_self, Cache.isExpired, hexp]
  · intro e he hexp
    have hx : Cache.isExpired c e now2 = true := by
      simp [Cache.isExpired, hexp]
    refine ⟨?_, ?_, ?_⟩
    · simp [Cache.get, he, hx]
    · simp only [Cache.get, he, hx, if_true, Cache.getStats]
      exact JsMap.length_del_of_get c.cache k e he
    · simp only [Cache.get, he, hx, if_true, JsMap.hasKey]
      rw [JsMap.get_del_self c.cache k hnd]
      rfl

/-- C6 witness: the amended round-trip on an empty cache, and the expiry
branch on a cache holding one entry created at time 0, read at time 20 with
ttl 10. -/
theorem C6_cache_roundtrip_witness :
    (Cache.get (Cache.set c6wCache "k" "v" 0) "k" 0).1 = some "v" ∧
    ((Cache.get c6wCache2 "k" 20).1 = none ∧
      (Cache.getStats (Cache.get c6wCache2 "k" 20).2).size + 1 =
        (Cache.getStats c6wCache2).size ∧
      JsMap.hasKey ((Cache.get c6wCache2 "k" 20).2).cache "k" = false) :=
  ⟨(C6_cache_roundtrip c6wCache "k" "v" 0 20 (by decide) (by simp [c6wCache])
      (fun e he => nomatch he)).1,
   (C6_cache_roundtrip c6wCache2 "k" "x" 0 20 (by decide) (by simp [c6wCache2])
      (fun e he => by injection he with h; subst h; decide)).2
     ⟨"old", 0, 0, 0⟩ rfl (by decide)⟩

/-- C7 (amended): inserting a fresh key into a cache holding exactly
`maxSize ≥ 1` entries, none of whose keys is the empty string, removes
exactly one entry first — the first entry in insertion order attaining the
minimal `lastAccessed` (`FirstMinBy`: every eligible entry before it is
strictly larger, i.e. ties go to the earliest-inserted) — then appends the
new entry, leaving the total size unchanged. The nonempty-key proviso is
needed because the source's `if (lruKey)` truthiness guard skips eviction
when the selected key is the falsy empty string — see the counterexample. -/
theorem C7_lru_eviction {T : Type} (c : Cache.ResponseCache T) (k : String) (v : T)
    (now : Int) (hfull : c.cache.length = c.maxSize)
    (hpos : 0 < c.maxSize) (hnew : JsMap.hasKey c.cache k = false)
    (hkeys : ∀ p ∈ c.cache, p.1 ≠ "") :
    ∃ ek e, JsMap.FirstMinBy (fun _ => true) (fun x => x.lastAccessed) c.cache ek e ∧
      (Cache.set c k v now).cache =
        JsMap.set (JsMap.del c.cache ek) k ⟨v, now, now, 0⟩ ∧
      (Cache.set c k v now).cache.length = c.cache.length := by
  have hg : JsMap.get c.cache k = none := by
    unfold JsMap.hasKey at hnew
    cases hgg : JsMap.get c.cache k
    · rfl
    · rw [hgg] at hnew; simp at hnew
  have hcap : c.maxSize ≤ c.cache.length := le_of_eq hfull.symm
  rw [cache_set_of_absent c k v now hg, if_pos hcap]
  obtain ⟨p, hp⟩ : ∃ p, p ∈ c.cache := by
    cases hc : c.cache with
    | nil => rw [hc] at hfull; simp at hfull; omega
    | cons q r => exact ⟨q, by simp [hc]⟩
  have hsome := JsMap.selectMin_isSome_of_mem (fun _ => true)
    (fun (e : Cache.CacheEntry T) => e.lastAccessed) c.cache ⟨p, hp, rfl⟩
  obtain ⟨⟨ek, t⟩, hsel⟩ := Option.isSome_iff_exists.mp hsome
  obtain ⟨e, hst, hfm⟩ := JsMap.selectMin_none_spec _ _ c.cache ek t hsel
  have hmem : (ek, e) ∈ c.cache := by
    obtain ⟨l1, l2, hdec, _, _, _⟩ := hfm
    rw [hdec]
    exact List.mem_append.mpr (Or.inr (List.mem_cons_self _ _))
  have hek : ek ≠ "" := hkeys (ek, e) hmem
  have hcache : (Cache.evictLRU c).cache = JsMap.del c.cache ek :=
    evictLRU_cache_eq c ek t hsel hek
  refine ⟨ek, e, hfm, by simp [hcache], ?_⟩
  obtain ⟨w, hw⟩ := JsMap.get_isSome_of_mem c.cache ek e hmem
  have hdelk : JsMap.get (JsMap.del c.cache ek) k = none :=
    JsMap.get_del_none c.cache k ek hg
  have hlen : (JsMap.del c.cache ek).length + 1 = c.cache.length :=
    JsMap.length_del_of_get c.cache ek w hw
  simp only [hcache, JsMap.length_set, JsMap.hasKey, hdelk]
  simpa using hlen

/-- C7 witness: a full two-entry cache whose entries tie on `lastAccessed`;
inserting key "c" evicts the earliest-inserted of the tied entries. -/
theorem C7_lru_eviction_witness :
    ∃ ek e, JsMap.FirstMinBy (fun _ => true) (fun x => x.lastAccessed)
        c7wCache.cache ek e ∧
      (Cache.set c7wCache "c" "z" 50).cache =
        JsMap.set (JsMap.del c7wCache.cache ek) "c" ⟨"z", 50, 50, 0⟩ ∧
      (Cache.set c7wCache "c" "z" 50).cache.length = c7wCache.cache.length :=
  C7_lru_eviction c7wCache "c" "z" 50 rfl (by decide) (by decide) (by decide)

/-- C7 counterexample: with the single cached key being the empty string,
the `if (lruKey)` truthiness guard in `evictLRU` skips the eviction, so
inserting a fresh key into the full cache (`maxSize = 1`) grows it to two
entries instead of evicting the LRU entry, refuting the unconditional
eviction claim. -/
theorem C7_empty_key_skips_eviction :
    c7cexCache.maxSize = 1 ∧ c7cexCache.cache.length = 1 ∧
    (Cache.set c7cexCache "k" "v" 50).cache.length = 2 := by
  refine ⟨rfl, rfl, ?_⟩
  decide

/-- C9: `set` on a key that already holds an entry keeps `createdAt` and
`accessCount`, updating only the value and `lastAccessed`; consequently the
overwritten entry still expires relative to its original creation time. -/
theorem C9_overwrite_keeps_clock {T : Type} (c : Cache.ResponseCache T)
    (k : String) (v2 : T) (now2 now3 : Int) (e : Cache.CacheEntry T)
    (he : JsMap.get c.cache k = some e) :
    JsMap.get (Cache.set c k v2 now2).cache k =
      some ⟨v2, e.createdAt, now2, e.accessCount⟩ ∧
    (c.ttl < now3 - e.createdAt →
      (Cache.get (Cache.set c k v2 now2) k now3).1 = none) := by
  rw [cache_set_of_present c k v2 now2 e he]
  constructor
  · simpa using JsMap.get_set_self c.cache k _
  · intro hexp
    simp [Cache.get, JsMap.get_set_self, Cache.isExpired, hexp]

/-- C9 witness: overwriting the single entry of `c9wCache` (created at time
0, ttl 10) at time 5 keeps `createdAt = 0` and `accessCount = 3`; a read at
time 20 finds it expired. -/
theorem C9_overwrite_keeps_clock_witness :
    JsMap.get (Cache.set c9wCache "k" "v2" 5).cache "k" = some ⟨"v2", 0, 5, 3⟩ ∧
    ((c9wCache.ttl < 20 - (0:Int)) →
      (Cache.get (Cache.set c9wCache "k" "v2" 5) "k" 20).1 = none) :=
  C9_overwrite_keeps_clock c9wCache "k" "v2" 5 20 ⟨"v1", 0, 0, 3⟩ rfl

namespace JsMap

theorem length_set_le (l : List (String × α)) (k : String) (v : α) :
    (set l k v).length ≤ l.length + 1 := by
  rw [length_set]
  split <;> omega

theorem length_del_le (l : List (String × α)) (k : String) :
    (del l k).length ≤ l.length := by
  induction l with
  | nil => simp [del]
  | cons p rest ih =>
      obtain ⟨k', v'⟩ := p
      by_cases h : k' = k <;> simp [del, h] <;> omega

theorem mem_of_get (l : List (String × α)) (k : String) (v : α)
    (h : get l k = some v) : (k, v) ∈ l := by
  induction l with
  | nil => simp [get] at h
  | cons p rest ih =>
      obtain ⟨k', v'⟩ := p
      by_cases hk : k' = k
      · subst hk
        have h2 : v' = v := by simpa [get] using h
        subst h2
        exact List.mem_cons_self _ _
      · simp only [get, if_neg hk] at h
        exact List.mem_cons_of_mem _ (ih h)

theorem get_eq_of_mem_nodup (l : List (String × α)) (k : String) (v : α)
    (hnd : (l.map Prod.fst).Nodup) (h : (k, v) ∈ l) : get l k = some v := by
  induction l with
  | nil => simp at h
  | cons p rest ih =>
      obtain ⟨k', v'⟩ := p
      simp only [List.map_cons, List.nodup_cons] at hnd
      rcases List.mem_cons.mp h with hh | hh
      · rw [show k' = k from (congrArg Prod.fst hh).symm]
        rw [show v' = v from (congrArg Prod.snd hh).symm]
        simp [get]
      · have hk : ¬ k' = k := by
          intro he
          subst he
          exact hnd.1 (List.mem_map.mpr ⟨(k', v), hh, rfl⟩)
        simp [get, hk, ih hnd.2 hh]

end JsMap

theorem evictKey_nextController (p : Pool.ConnectionPool) (k : String) :
    (Pool.evictKey p k).nextController = p.nextController := by
  unfold Pool.evictKey
  cases JsMap.get p.connections k with
  | none => rfl
  | some c => rfl

theorem evictOldestIdle_nextController (p : Pool.ConnectionPool) :
    (Pool.evictOldestIdle p).nextController = p.nextController := by
  unfold Pool.evictOldestIdle
  cases JsMap.selectMin (fun c => !c.inUse) (fun c => c.lastUsed) p.connections none with
  | none => rfl
  | some q =>
      obtain ⟨k, t⟩ := q
      show (if k = "" then p else Pool.evictKey p k).nextController = p.nextController
      by_cases hk : k = ""
      · rw [if_pos hk]
      · rw [if_neg hk]; exact evictKey_nextController p k

theorem evictKey_length_le (p : Pool.ConnectionPool) (k : String) :
    (Pool.evictKey p k).connections.length ≤ p.connections.length := by
  unfold Pool.evictKey
  cases JsMap.get p.connections k with
  | none => exact le_refl _
  | some c => simpa using JsMap.length_del_le p.connections k

theorem evictOldestIdle_length_le (p : Pool.ConnectionPool) :
    (Pool.evictOldestIdle p).connections.length ≤ p.connections.length := by
  unfold Pool.evictOldestIdle
  cases JsMap.selectMin (fun c => !c.inUse) (fun c => c.lastUsed) p.connections none with
  | none => exact le_refl _
  | some q =>
      obtain ⟨k, t⟩ := q
      show (if k = "" then p else Pool.evictKey p k).connections.length ≤
        p.connections.length
      by_cases hk : k = ""
      · rw [if_pos hk]
      · rw [if_neg hk]; exact evictKey_length_le p k

theorem evictOldestIdle_of_idle (p : Pool.ConnectionPool)
    (hidle : ∃ q ∈ p.connections, q.2.inUse = false)
    (hkeys : ∀ q ∈ p.connections, q.1 ≠ "") :
    (Pool.evictOldestIdle p).connections.length + 1 = p.connections.length ∧
    ∃ ek e, JsMap.FirstMinBy (fun c => !c.inUse) (fun c => c.lastUsed)
        p.connections ek e ∧
      (Pool.evictOldestIdle p).connections = JsMap.del p.connections ek := by
  obtain ⟨q, hq, hqi⟩ := hidle
  have hsome := JsMap.selectMin_isSome_of_mem (fun c => !c.inUse)
    (fun (c : Pool.PooledConnection) => c.lastUsed) p.connections ⟨q, hq, by simp [hqi]⟩
  obtain ⟨⟨ek, t⟩, hsel⟩ := Option.isSome_iff_exists.mp hsome
  obtain ⟨e, hst, hfm⟩ := JsMap.selectMin_none_spec _ _ _ ek t hsel
  have hmem : (ek, e) ∈ p.connections := by
    obtain ⟨l1, l2, hdec, _, _, _⟩ := hfm
    rw [hdec]
    exact List.mem_append.mpr (Or.inr (List.mem_cons_self _ _))
  obtain ⟨w, hw⟩ := JsMap.get_isSome_of_mem _ ek e hmem
  have hek : ek ≠ "" := hkeys (ek, e) hmem
  have hconn : (Pool.evictOldestIdle p).connections = JsMap.del p.connections ek := by
    unfold Pool.evictOldestIdle
    rw [hsel]
    show (if ek = "" then p else Pool.evictKey p ek).connections =
      JsMap.del p.connections ek
    rw [if_neg hek]
    unfold Pool.evictKey
    rw [hw]
  constructor
  · rw [hconn]
    exact JsMap.length_del_of_get p.connections ek w hw
  · exact ⟨ek, e, hfm, hconn⟩

theorem acquireNew_length_le_of_idle (p : Pool.ConnectionPool) (key : String) (now : Int)
    (hcap : p.maxConnections ≤ p.connections.length)
    (hidle : ∃ q ∈ p.connections, q.2.inUse = false)
    (hkeys : ∀ q ∈ p.connections, q.1 ≠ "") :
    (Pool.acquireNew p key now).1.connections.length ≤ p.connections.length := by
  unfold Pool.acquireNew
  rw [if_pos hcap]
  have h1 := (evictOldestIdle_of_idle p hidle hkeys).1
  have h2 := JsMap.length_set_le (Pool.evictOldestIdle p).connections key
    ⟨(Pool.evictOldestIdle p).nextController, now, now, true⟩
  simp only []
  omega

theorem acquireNew_length_le (p : Pool.ConnectionPool) (key : String) (now : Int) :
    (Pool.acquireNew p key now).1.connections.length ≤ p.connections.length + 1 := by
  unfold Pool.acquireNew
  by_cases hcap : p.maxConnections ≤ p.connections.length
  · rw [if_pos hcap]
    have h1 := evictOldestIdle_length_le p
    have h2 := JsMap.length_set_le (Pool.evictOldestIdle p).connections key
      ⟨(Pool.evictOldestIdle p).nextController, now, now, true⟩
    simp only []
    omega
  · rw [if_neg hcap]
    have h2 := JsMap.length_set_le p.connections key ⟨p.nextController, now, now, true⟩
    simp only []
    omega

theorem acquire_none (p : Pool.ConnectionPool) (key : String) (now : Int)
    (he : JsMap.get p.connections key = none) :
    Pool.acquire p key now = Pool.acquireNew p key now := by
  unfold Pool.acquire
  rw [he]

theorem acquire_some (p : Pool.ConnectionPool) (key : String) (now : Int)
    (e : Pool.PooledConnection) (he : JsMap.get p.connections key = some e) :
    Pool.acquire p key now =
      (if e.inUse = true then Pool.acquireNew p key now
       else if Pool.isConnectionValid p e now = true then
         ({ p with
              connections := JsMap.set p.connections key
                ({ e with inUse := true, lastUsed := now }) },
          e.controller)
       else Pool.acquireNew
         { p with connections := JsMap.del p.connections key } key now) := by
  unfold Pool.acquire
  rw [he]

/-- C3 (amended): when `acquire` is called at (or beyond) capacity, at least
one pooled entry is idle and no pooled key is the empty string (the source's
`if (oldestKey)` truthiness guard skips eviction for a falsy key), the pool
does not grow; on the fresh-key path the entry evicted is exactly the
earliest-inserted idle entry with the minimal `lastUsed`. (At-capacity
`acquire` with every entry in use inserts without evicting, so the
unconditional "at most N entries" bound fails — see the counterexample.) -/
theorem C3_acquire_bound (p : Pool.ConnectionPool) (key : String) (now : Int)
    (hcap : p.maxConnections ≤ p.connections.length)
    (hidle : ∃ q ∈ p.connections, q.2.inUse = false)
    (hkeys : ∀ q ∈ p.connections, q.1 ≠ "") :
    (Pool.acquire p key now).1.connections.length ≤ p.connections.length ∧
    (JsMap.get p.connections key = none →
      ∃ ek e, JsMap.FirstMinBy (fun c => !c.inUse) (fun c => c.lastUsed)
          p.connections ek e ∧
        (Pool.acquire p key now).1.connections =
          JsMap.set (JsMap.del p.connections ek) key
            ⟨p.nextController, now, now, true⟩) := by
  constructor
  · cases hg : JsMap.get p.connections key with
    | none =>
        rw [acquire_none p key now hg]
        exact acquireNew_length_le_of_idle p key now hcap hidle hkeys
    | some existing =>
        rw [acquire_some p key now existing hg]
        by_cases hiu : existing.inUse = true
        · rw [if_pos hiu]
          exact acquireNew_length_le_of_idle p key now hcap hidle hkeys
        · rw [if_neg hiu]
          by_cases hval : Pool.isConnectionValid p existing now = true
          · rw [if_pos hval]
            have hk : JsMap.hasKey p.connections key = true := by
              simp [JsMap.hasKey, hg]
            simp only [JsMap.length_set, hk, if_pos]
            omega
          · rw [if_neg hval]
            have hdl : (JsMap.del p.connections key).length + 1 = p.connections.length :=
              JsMap.length_del_of_get _ key existing hg
            have hle := acquireNew_length_le
              { p with connections := JsMap.del p.connections key } key now
            simp only [] at hle
            omega
  · intro hg
    rw [acquire_none p key now hg]
    unfold Pool.acquireNew
    rw [if_pos hcap]
    obtain ⟨hlen, ek, e, hfm, hconn⟩ := evictOldestIdle_of_idle p hidle hkeys
    refine ⟨ek, e, hfm, ?_⟩
    simp only [hconn, evictOldestIdle_nextController]

/-- C3 counterexample: a pool with `maxConnections = 1` grows to two
entries after two `acquire` calls with no `release` in between —
`evictOldestIdle` only evicts idle entries, and both are in use. -/
theorem C3_pool_exceeds_capacity :
    c3cexPool.maxConnections = 1 ∧
    (Pool.acquire (Pool.acquire c3cexPool "a" 0).1 "b" 0).1.connections.length = 2 := by
  constructor
  · rfl
  · decide

/-- C3 witness: the amended bound and the LRU-idle eviction applied to a
concrete full pool with one idle and one in-use entry. -/
theorem C3_acquire_bound_witness :
    (Pool.acquire c3wPool "c" 0).1.connections.length ≤ c3wPool.connections.length ∧
    (∃ ek e, JsMap.FirstMinBy (fun c => !c.inUse) (fun c => c.lastUsed)
        c3wPool.connections ek e ∧
      (Pool.acquire c3wPool "c" 0).1.connections =
        JsMap.set (JsMap.del c3wPool.connections ek) "c" ⟨2, 0, 0, true⟩) :=
  ⟨(C3_acquire_bound c3wPool "c" 0 (by decide) ⟨("a", ⟨0, 0, 10, false⟩), by decide, rfl⟩
      (by decide)).1,
   (C3_acquire_bound c3wPool "c" 0 (by decide) ⟨("a", ⟨0, 0, 10, false⟩), by decide, rfl⟩
      (by decide)).2 rfl⟩

theorem evictOldestIdle_no_new_abort (p : Pool.ConnectionPool) (c0 : Nat)
    (hnd : (p.connections.map Prod.fst).Nodup)
    (hnab : c0 ∉ p.aborted)
    (hdist : ∀ q ∈ p.connections, q.2.inUse = false → q.2.controller ≠ c0) :
    c0 ∉ (Pool.evictOldestIdle p).aborted := by
  unfold Pool.evictOldestIdle
  cases hsel : JsMap.selectMin (fun c => !c.inUse) (fun c => c.lastUsed)
      p.connections none with
  | none => exact hnab
  | some q =>
      obtain ⟨ek, t⟩ := q
      show c0 ∉ (if ek = "" then p else Pool.evictKey p ek).aborted
      by_cases hk : ek = ""
      · rw [if_pos hk]; exact hnab
      · rw [if_neg hk]
        obtain ⟨e2, hst, hfm⟩ := JsMap.selectMin_none_spec _ _ _ ek t hsel
        have hmem : (ek, e2) ∈ p.connections := by
          obtain ⟨l1, l2, hdec, _, _, _⟩ := hfm
          rw [hdec]
          exact List.mem_append.mpr (Or.inr (List.mem_cons_self _ _))
        have hidle2 : e2.inUse = false := by
          obtain ⟨_, _, _, hel, _, _⟩ := hfm
          simpa using hel
        have hget : JsMap.get p.connections ek = some e2 :=
          JsMap.get_eq_of_mem_nodup _ _ _ hnd hmem
        unfold Pool.evictKey
        rw [hget]
        simp only [List.mem_append, List.mem_singleton]
        rintro (h | h)
        · exact hnab h
        · exact hdist (ek, e2) hmem hidle2 h.symm

/-- C10: a second `acquire(k)` while the entry for `k` is in use neither
waits nor fails: it hands out the pool's fresh controller (distinct from the
old one), overwrites the map entry for `k`, and never aborts the old
controller (eviction only touches idle entries). The freshness/distinctness
hypotheses are invariants of pools built by `acquire`/`release` from empty. -/
theorem C10_inuse_overwrite (p : Pool.ConnectionPool) (key : String) (now : Int)
    (e : Pool.PooledConnection)
    (he : JsMap.get p.connections key = some e) (hin : e.inUse = true)
    (hnd : (p.connections.map Prod.fst).Nodup)
    (hfresh : ∀ q ∈ p.connections, q.2.controller < p.nextController)
    (hnab : e.controller ∉ p.aborted)
    (hdist : ∀ q ∈ p.connections, q.2.inUse = false → q.2.controller ≠ e.controller) :
    (Pool.acquire p key now).2 = p.nextController ∧
    (Pool.acquire p key now).2 ≠ e.controller ∧
    JsMap.get (Pool.acquire p key now).1.connections key =
      some ⟨p.nextController, now, now, true⟩ ∧
    e.controller ∉ (Pool.acquire p key now).1.aborted := by
  have hacq : Pool.acquire p key now = Pool.acquireNew p key now := by
    rw [acquire_some p key now e he, if_pos hin]
  rw [hacq]
  have hlt : e.controller < p.nextController :=
    hfresh (key, e) (JsMap.mem_of_get p.connections key e he)
  unfold Pool.acquireNew
  by_cases hcap : p.maxConnections ≤ p.connections.length
  · rw [if_pos hcap]
    refine ⟨?_, ?_, ?_, ?_⟩
    · simp only [evictOldestIdle_nextController]
    · simp only [evictOldestIdle_nextController]
      exact fun h => absurd (h ▸ hlt) (lt_irrefl _)
    · simp only [JsMap.get_set_self, evictOldestIdle_nextController]
    · simp only []
      exact evictOldestIdle_no_new_abort p e.controller hnd hnab hdist
  · rw [if_neg hcap]
    refine ⟨rfl, ?_, ?_, hnab⟩
    · exact fun h => absurd (h ▸ hlt) (lt_irrefl _)
    · simp only [JsMap.get_set_self]

/-- C10 witness: a pool holding a single in-use connection (controller 0)
under "k"; re-acquiring "k" returns the fresh controller 1, overwrites the
entry and aborts nothing. -/
theorem C10_inuse_overwrite_witness :
    (Pool.acquire c10wPool "k" 5).2 = c10wPool.nextController ∧
    (Pool.acquire c10wPool "k" 5).2 ≠ (0 : Nat) ∧
    JsMap.get (Pool.acquire c10wPool "k" 5).1.connections "k" =
      some ⟨c10wPool.nextController, 5, 5, true⟩ ∧
    (0 : Nat) ∉ (Pool.acquire c10wPool "k" 5).1.aborted :=
  C10_inuse_overwrite c10wPool "k" 5 ⟨0, 0, 0, true⟩ rfl rfl (by decide)
    (by decide) (by decide) (by decide)

theorem abort_transition_ok (ctx : Engine.WorkflowContext) (r : Option String) (ts : Int)
    (ht : Engine.isTerminal ctx = false) :
    ∃ ctx', Engine.transition ctx (.ABORT r) ts = .ok ctx' ∧
      ctx'.state = .failed ∧ Engine.isTerminal ctx' = true ∧
      ctx'.history.length = ctx.history.length + 1 := by
  obtain ⟨tk, st, it, mx, sp, pl, rf, tf, gf, hi⟩ := ctx
  cases st <;>
    first
      | exact ⟨_, rfl, rfl, rfl, by simp [Engine.applyStep]⟩
      | exact nomatch ht

theorem runLoop_terminal (cfg : Runner.RunnerConfig) (orc : Runner.StepOracle)
    (n j : Nat) (c : Engine.WorkflowContext) (h : Engine.isTerminal c = true) :
    Runner.runLoop cfg orc n j c = .done c := by
  cases n with
  | zero => rfl
  | succ m => simp [Runner.runLoop, h]

/-- C5: whenever the agent invocation of a loop iteration raises (oracle
outcome `failure`), the runner's inner catch converts it into an `ABORT`
transition instead of propagating: the loop returns normally (`done`, no
escaped error) with a context in the terminal `failed` state carrying one
extra history entry. Stated over an arbitrary non-terminal loop context,
this covers a failure at any iteration of `runWorkflow`'s main loop. -/
theorem C5_agent_failure_aborts (cfg : Runner.RunnerConfig) (orc : Runner.StepOracle)
    (fuel i : Nat) (ctx : Engine.WorkflowContext) (role : Engine.AgentRole)
    (msg : String) (hf : 0 < fuel) (ht : Engine.isTerminal ctx = false)
    (hr : Engine.getNextAgent ctx = some role)
    (ho : orc.outcome i = .failure msg) :
    ∃ ctx', Runner.runLoop cfg orc fuel i ctx = .done ctx' ∧
      ctx'.state = .failed ∧ Engine.isTerminal ctx' = true ∧
      ctx'.history.length = ctx.history.length + 1 := by
  obtain ⟨n, rfl⟩ : ∃ n, fuel = n + 1 := ⟨fuel - 1, by omega⟩
  obtain ⟨cA, hA, hAs, hAt, hAh⟩ :=
    abort_transition_ok ctx (some msg) (i : Int) ht
  have hstep : Runner.runStep cfg orc i ctx role = .ok cA := by
    simp [Runner.runStep, ho, hA]
  have hgate : Runner.applyGate cfg orc i cA = cA := by
    simp [Runner.applyGate, hAt]
  refine ⟨cA, ?_, hAs, hAt, hAh⟩
  simp only [Runner.runLoop, ht, Bool.false_eq_true, if_false, hr, hstep, hgate]
  exact runLoop_terminal cfg orc n (i+1) cA hAt

/-- C5 witness: the first iteration on a fresh context with a failing agent
ends the loop normally in `failed` with one history entry. -/
theorem C5_agent_failure_aborts_witness :
    ∃ ctx', Runner.runLoop c5wCfg c5wOracle 1 0
        (Engine.createWorkflowContext "t" 5) = .done ctx' ∧
      ctx'.state = .failed ∧ Engine.isTerminal ctx' = true ∧
      ctx'.history.length =
        (Engine.createWorkflowContext "t" 5).history.length + 1 :=
  C5_agent_failure_aborts c5wCfg c5wOracle 1 0 (Engine.createWorkflowContext "t" 5)
    .architect "provider unreachable" (by decide) rfl rfl rfl

theorem processItem_ok (orc : Queue.QueueOracle) (i : Nat) (t : String)
    (h : Queue.failedOutcome orc i = false) :
    (Queue.processItem orc i t).status = .completed ∧
    (Queue.processItem orc i t).task = t ∧
    (Queue.processItem orc i t).result.isSome = true ∧
    (Queue.processItem orc i t).duration = some (orc.duration i) := by
  unfold Queue.failedOutcome at h
  unfold Queue.processItem
  cases hr : orc.run i with
  | throws msg => rw [hr] at h; simp at h
  | returns ctx =>
      rw [hr] at h
      simp only [decide_eq_false_iff_not] at h
      simp [h]

theorem processItem_failed (orc : Queue.QueueOracle) (i : Nat) (t : String)
    (h : Queue.failedOutcome orc i = true) :
    (Queue.processItem orc i t).status = .failed ∧
    (Queue.processItem orc i t).task = t ∧
    (Queue.processItem orc i t).duration = some (orc.duration i) := by
  unfold Queue.failedOutcome at h
  unfold Queue.processItem
  cases hr : orc.run i with
  | throws msg => simp
  | returns ctx =>
      rw [hr] at h
      simp only [decide_eq_true_eq] at h
      simp [h]

theorem processedPrefix_spec (orc : Queue.QueueOracle) :
    ∀ (ts : List String) (i : Nat),
      (∀ j, j < ts.length → Queue.failedOutcome orc (i + j) = false) →
      (Queue.processedPrefix orc i ts).map Queue.QueuedTask.task = ts ∧
      ∀ item ∈ Queue.processedPrefix orc i ts,
        item.status = .completed ∧ item.result.isSome = true ∧
        item.duration.isSome = true := by
  intro ts
  induction ts with
  | nil => intro i h; simp [Queue.processedPrefix]
  | cons t rest ih =>
      intro i h
      have h0 : Queue.failedOutcome orc i = false := by
        have := h 0 (by simp)
        simpa using this
      obtain ⟨hs, htk, hres, hdur⟩ := processItem_ok orc i t h0
      have hrest := ih (i+1) (fun j hj => by
        have := h (j+1) (by simpa using Nat.succ_lt_succ hj)
        simpa [Nat.add_assoc, Nat.add_comm, Nat.add_left_comm] using this)
      refine ⟨?_, ?_⟩
      · simp [Queue.processedPrefix, htk, hrest.1]
      · intro item hitem
        rcases List.mem_cons.mp hitem with hh | hh
        · subst hh
          exact ⟨hs, hres, by simp [hdur]⟩
        · exact hrest.2 item hh

theorem runTaskQueue_no_failure (orc : Queue.QueueOracle) (s : Bool) :
    ∀ (ts : List String) (i : Nat),
      (∀ j, j < ts.length → Queue.failedOutcome orc (i + j) = false) →
      Queue.runTaskQueue orc s i ts =
        (Queue.processedPrefix orc i ts, List.range' i ts.length) := by
  intro ts
  induction ts with
  | nil => intro i h; simp [Queue.runTaskQueue, Queue.processedPrefix]
  | cons t rest ih =>
      intro i h
      have h0 : Queue.failedOutcome orc i = false := by
        have := h 0 (by simp)
        simpa using this
      have hrest := ih (i+1) (fun j hj => by
        have := h (j+1) (by simpa using Nat.succ_lt_succ hj)
        simpa [Nat.add_assoc, Nat.add_comm, Nat.add_left_comm] using this)
      simp [Queue.runTaskQueue, h0, hrest, Queue.processedPrefix, List.range'_succ]

theorem runTaskQueue_stop_spec (orc : Queue.QueueOracle) (tf : String)
    (post : List String) :
    ∀ (pre : List String) (i : Nat),
      (∀ j, j < pre.length → Queue.failedOutcome orc (i + j) = false) →
      Queue.failedOutcome orc (i + pre.length) = true →
      Queue.runTaskQueue orc true i (pre ++ tf :: post) =
        (Queue.processedPrefix orc i pre ++
          Queue.processItem orc (i + pre.length) tf :: post.map Queue.skippedItem,
         List.range' i (pre.length + 1)) := by
  intro pre
  induction pre with
  | nil =>
      intro i hok hfail
      simp only [Nat.add_zero, List.length_nil] at hfail
      simp [Queue.runTaskQueue, hfail, Queue.processedPrefix, List.range'_succ]
  | cons t pre ih =>
      intro i hok hfail
      have h0 : Queue.failedOutcome orc i = false := by
        have := hok 0 (by simp)
        simpa using this
      have hrest := ih (i+1) (fun j hj => by
        have := hok (j+1) (by simpa using Nat.succ_lt_succ hj)
        simpa [Nat.add_assoc, Nat.add_comm, Nat.add_left_comm] using this)
        (by
          have : i + (t :: pre).length = (i+1) + pre.length := by
            simp [Nat.add_assoc, Nat.add_comm, Nat.add_left_comm]
          rw [this] at hfail
          exact hfail)
      simp [Queue.runTaskQueue, h0, hrest, Queue.processedPrefix, List.range'_succ,
        Nat.add_assoc, Nat.add_comm, Nat.add_left_comm]

/-- C8: `runTaskQueue` processes tasks strictly sequentially in input
order — the invoked-index trace is `range` of the number of tasks started —
recording status, result and duration per task; and with `stopOnFailure`
set, once a task fails (its workflow ends in `failed` or throws), that task
is marked failed and every later task is returned as a bare `skipped` entry
(no result, no error, no duration) whose workflow is never invoked (the
trace stops at the failing index). -/
theorem C8_queue_sequential_stop (orc : Queue.QueueOracle) (tasks pre post : List String)
    (tf : String) :
    ((∀ j, j < tasks.length → Queue.failedOutcome orc j = false) →
      (∀ s, Queue.runTaskQueue orc s 0 tasks =
        (Queue.processedPrefix orc 0 tasks, List.range tasks.length)) ∧
      (Queue.processedPrefix orc 0 tasks).map Queue.QueuedTask.task = tasks ∧
      (∀ item ∈ Queue.processedPrefix orc 0 tasks,
        item.status = .completed ∧ item.result.isSome = true ∧
        item.duration.isSome = true)) ∧
    ((∀ j, j < pre.length → Queue.failedOutcome orc j = false) →
      Queue.failedOutcome orc pre.length = true →
      Queue.runTaskQueue orc true 0 (pre ++ tf :: post) =
        (Queue.processedPrefix orc 0 pre ++
          Queue.processItem orc pre.length tf :: post.map Queue.skippedItem,
         List.range (pre.length + 1)) ∧
      (Queue.processItem orc pre.length tf).status = .failed ∧
      (Queue.processItem orc pre.length tf).duration =
        some (orc.duration pre.length) ∧
      ∀ t, (Queue.skippedItem t).status = .skipped ∧
        (Queue.skippedItem t).result = none ∧
        (Queue.skippedItem t).duration = none) := by
  constructor
  · intro hok
    have h0 : ∀ j, j < tasks.length → Queue.failedOutcome orc (0 + j) = false := by
      intro j hj; simpa using hok j hj
    obtain ⟨htk, hitems⟩ := processedPrefix_spec orc tasks 0 h0
    refine ⟨?_, htk, hitems⟩
    intro s
    rw [runTaskQueue_no_failure orc s tasks 0 h0, List.range_eq_range']
  · intro hok hfail
    have h0 : ∀ j, j < pre.length → Queue.failedOutcome orc (0 + j) = false := by
      intro j hj; simpa using hok j hj
    have hf0 : Queue.failedOutcome orc (0 + pre.length) = true := by simpa using hfail
    obtain ⟨hs, htk, hdur⟩ := processItem_failed orc pre.length tf hfail
    refine ⟨?_, hs, hdur, fun t => ⟨rfl, rfl, rfl⟩⟩
    have := runTaskQueue_stop_spec orc tf post pre 0 h0 hf0
    simpa [List.range_eq_range'] using this

/-- C8 witness: a one-task queue that completes, and a three-task queue
whose second task fails with stop-on-failure, skipping the third. -/
theorem C8_queue_sequential_stop_witness :
    Queue.runTaskQueue c8wOracle false 0 ["t1"] =
      (Queue.processedPrefix c8wOracle 0 ["t1"], List.range 1) ∧
    Queue.runTaskQueue c8wOracle true 0 (["t1"] ++ "t2" :: ["t3"]) =
      (Queue.processedPrefix c8wOracle 0 ["t1"] ++
        Queue.processItem c8wOracle 1 "t2" :: ["t3"].map Queue.skippedItem,
       List.range 2) ∧
    (Queue.processItem c8wOracle 1 "t2").status = .failed :=
  ⟨((C8_queue_sequential_stop c8wOracle ["t1"] ["t1"] ["t3"] "t2").1 (by decide)).1 false,
   ((C8_queue_sequential_stop c8wOracle ["t1"] ["t1"] ["t3"] "t2").2 (by decide) (by decide)).1,
   (((C8_queue_sequential_stop c8wOracle ["t1"] ["t1"] ["t3"] "t2").2 (by decide) (by decide)).2).1⟩

namespace Optimizer

theorem countMsg_nonneg (o : ContextOptimizerOptions) (m : ChatMessage)
    (hov : 0 ≤ o.messageOverhead) (hpc : 0 ≤ o.tokensPerChar) :
    0 ≤ countMsg o m := by
  unfold countMsg
  have h1 : (0:ℚ) ≤ (m.content.length : ℚ) * o.tokensPerChar :=
    mul_nonneg (by positivity) hpc
  have h2 : 0 ≤ Int.ceil ((m.content.length : ℚ) * o.tokensPerChar) :=
    Int.ceil_nonneg h1
  omega

theorem countTokens_nonneg (o : ContextOptimizerOptions) (l : List ChatMessage)
    (hov : 0 ≤ o.messageOverhead) (hpc : 0 ≤ o.tokensPerChar) :
    0 ≤ countTokens o l := by
  unfold countTokens
  induction l with
  | nil => simp
  | cons m rest ih =>
      simp only [List.map_cons, List.sum_cons]
      have := countMsg_nonneg o m hov hpc
      omega

theorem countTokens_cons (o : ContextOptimizerOptions) (m : ChatMessage)
    (l : List ChatMessage) :
    countTokens o (m :: l) = countMsg o m + countTokens o l := by
  simp [countTokens]

theorem countTokens_append (o : ContextOptimizerOptions) (l1 l2 : List ChatMessage) :
    countTokens o (l1 ++ l2) = countTokens o l1 + countTokens o l2 := by
  simp [countTokens]

theorem countTokens_reverse (o : ContextOptimizerOptions) (l : List ChatMessage) :
    countTokens o l.reverse = countTokens o l := by
  simp [countTokens, List.sum_reverse]

theorem greedyPick_sum_le (avail : Int) :
    ∀ (l : List MessageScore) (used : Int), used ≤ avail →
      used + sumTokens (greedyPick avail l used) ≤ avail := by
  intro l
  induction l with
  | nil => intro used h; simpa [greedyPick, sumTokens] using h
  | cons s rest ih =>
      intro used h
      by_cases hc : avail < used + s.tokens
      · simpa [greedyPick, hc] using ih used h
      · push_neg at hc
        have := ih (used + s.tokens) hc
        simp only [greedyPick, if_neg (not_lt.mpr hc)]
        simp only [sumTokens, List.map_cons, List.sum_cons] at this ⊢
        omega

theorem greedyPick_nil_of_neg (avail : Int) :
    ∀ (l : List MessageScore) (used : Int),
      (∀ s ∈ l, 0 ≤ s.tokens) → avail < used →
      greedyPick avail l used = [] := by
  intro l
  induction l with
  | nil => intro used _ _; rfl
  | cons s rest ih =>
      intro used hnn h
      have hs : 0 ≤ s.tokens := hnn s (List.mem_cons_self _ _)
      have : avail < used + s.tokens := by omega
      simp only [greedyPick, if_pos this]
      exact ih used (fun x hx => hnn x (List.mem_cons_of_mem _ hx)) h

theorem sumTokens_perm {l1 l2 : List MessageScore} (h : l1.Perm l2) :
    sumTokens l1 = sumTokens l2 := by
  unfold sumTokens
  exact (h.map MessageScore.tokens).sum_eq

theorem selectImportant_sum_le (avail : Int) (l : List MessageScore)
    (hpos : 0 ≤ avail) :
    sumTokens (selectImportantMessages avail l) ≤ avail := by
  unfold selectImportantMessages
  have h1 := greedyPick_sum_le avail (sortByScoreDesc l) 0 hpos
  have h2 : sumTokens (sortByIdx (greedyPick avail (sortByScoreDesc l) 0)) =
      sumTokens (greedyPick avail (sortByScoreDesc l) 0) :=
    sumTokens_perm (List.perm_insertionSort _ _)
  omega

theorem selectImportant_nil_of_neg (avail : Int) (l : List MessageScore)
    (hnn : ∀ s ∈ l, 0 ≤ s.tokens) (hneg : avail < 0) :
    selectImportantMessages avail l = [] := by
  unfold selectImportantMessages
  have hnn2 : ∀ s ∈ sortByScoreDesc l, 0 ≤ s.tokens := fun s hs =>
    hnn s ((List.perm_insertionSort _ _).mem_iff.mp hs)
  rw [greedyPick_nil_of_neg avail _ 0 hnn2 hneg]
  rfl

end Optimizer

namespace Optimizer

theorem recentRev_sum_le (o : ContextOptimizerOptions) (mr : Int) :
    ∀ (l : List ChatMessage) (acc : Int),
      acc + countTokens o (recentRev o mr acc l) ≤ mr ∨
        recentRev o mr acc l = [] := by
  intro l
  induction l with
  | nil => intro acc; right; rfl
  | cons m rest ih =>
      intro acc
      by_cases hc : mr < acc + countMsg o m
      · right; simp [recentRev, hc]
      · push_neg at hc
        left
        simp only [recentRev, if_neg (not_lt.mpr hc)]
        rcases ih (acc + countMsg o m) with h | h
        · rw [countTokens_cons]; omega
        · rw [h, countTokens_cons]
          simpa [countTokens] using hc

theorem recentRev_all (o : ContextOptimizerOptions) (mr : Int)
    (hov : 0 ≤ o.messageOverhead) (hpc : 0 ≤ o.tokensPerChar) :
    ∀ (l : List ChatMessage) (acc : Int),
      acc + countTokens o l ≤ mr → recentRev o mr acc l = l := by
  intro l
  induction l with
  | nil => intro acc _; rfl
  | cons m rest ih =>
      intro acc h
      rw [countTokens_cons] at h
      have hrest : 0 ≤ countTokens o rest := countTokens_nonneg o rest hov hpc
      have hc : ¬ (mr < acc + countMsg o m) := by omega
      simp only [recentRev, if_neg hc]
      rw [ih (acc + countMsg o m) (by omega)]

theorem recentRev_subset (o : ContextOptimizerOptions) (mr : Int) :
    ∀ (l : List ChatMessage) (acc : Int) (x : ChatMessage),
      x ∈ recentRev o mr acc l → x ∈ l := by
  intro l
  induction l with
  | nil => intro acc x h; simpa [recentRev] using h
  | cons m rest ih =>
      intro acc x h
      by_cases hc : mr < acc + countMsg o m
      · simp [recentRev, hc] at h
      · simp only [recentRev, if_neg hc] at h
        rcases List.mem_cons.mp h with hh | hh
        · exact hh ▸ List.mem_cons_self _ _
        · exact List.mem_cons_of_mem _ (ih _ x hh)

theorem scoreMessages_length (o : ContextOptimizerOptions) (l : List ChatMessage) :
    (scoreMessages o l).length = l.length := by
  simp [scoreMessages]

theorem scoreMessages_mem (o : ContextOptimizerOptions) (l : List ChatMessage)
    (s : MessageScore) (h : s ∈ scoreMessages o l) :
    ∃ m, l.get? s.index = some m ∧ s.tokens = countMsg o m := by
  unfold scoreMessages at h
  obtain ⟨⟨i, m⟩, hmem, hs⟩ := List.mem_map.mp h
  have : l.get? i = some m := by
    have := List.mk_mem_enum_iff_getElem?.mp hmem
    simpa [List.get?_eq_getElem?] using this
  subst hs
  exact ⟨m, this, rfl⟩

theorem countTokens_filterMap (o : ContextOptimizerOptions)
    (l : List MessageScore) (msgs : List ChatMessage)
    (h : ∀ s ∈ l, ∃ m, msgs.get? s.index = some m ∧ s.tokens = countMsg o m) :
    countTokens o (l.filterMap (fun s => msgs.get? s.index)) = sumTokens l := by
  induction l with
  | nil => simp [countTokens, sumTokens]
  | cons s rest ih =>
      obtain ⟨m, hm, ht⟩ := h s (List.mem_cons_self _ _)
      have hrest := ih (fun x hx => h x (List.mem_cons_of_mem _ hx))
      simp only [List.filterMap_cons, hm]
      rw [countTokens_cons]
      simp only [sumTokens, List.map_cons, List.sum_cons]
      simp only [sumTokens] at hrest
      omega

theorem optimizeOther_subset (o : ContextOptimizerOptions)
    (l : List ChatMessage) (avail : Int) (x : ChatMessage)
    (h : x ∈ optimizeOtherMessages o l avail) : x ∈ l := by
  unfold optimizeOtherMessages at h
  by_cases h0 : l.length = 0
  · simp [h0] at h
  · rw [if_neg h0] at h
    by_cases h1 : countTokens o l ≤ avail
    · rwa [if_pos h1] at h
    · rw [if_neg h1] at h
      rcases List.mem_append.mp h with hh | hh
      · obtain ⟨s, hs, hget⟩ := List.mem_filterMap.mp hh
        exact List.get?_mem hget
      · have := recentRev_subset o o.minRecentTokens l.reverse 0 x
          (by simpa using hh)
        simpa using this

end Optimizer

namespace Optimizer

theorem greedyPick_subset (avail : Int) :
    ∀ (l : List MessageScore) (used : Int) (x : MessageScore),
      x ∈ greedyPick avail l used → x ∈ l := by
  intro l
  induction l with
  | nil => intro used x h; simpa [greedyPick] using h
  | cons s rest ih =>
      intro used x h
      by_cases hc : avail < used + s.tokens
      · simp only [greedyPick, if_pos hc] at h
        exact List.mem_cons_of_mem _ (ih _ x h)
      · simp only [greedyPick, if_neg hc] at h
        rcases List.mem_cons.mp h with hh | hh
        · exact hh ▸ List.mem_cons_self _ _
        · exact List.mem_cons_of_mem _ (ih _ x hh)

theorem selectImportant_subset (avail : Int) (l : List MessageScore)
    (x : MessageScore) (h : x ∈ selectImportantMessages avail l) : x ∈ l := by
  unfold selectImportantMessages at h
  have h1 := (List.perm_insertionSort
    (fun a b : MessageScore => a.index ≤ b.index) _).mem_iff.mp h
  have h2 := greedyPick_subset avail _ 0 x h1
  exact (List.perm_insertionSort (fun a b : MessageScore => b.score ≤ a.score) l).mem_iff.mp h2

theorem optimizeOther_over_budget (o : ContextOptimizerOptions)
    (l : List ChatMessage) (avail : Int)
    (hov : 0 ≤ o.messageOverhead) (hpc : 0 ≤ o.tokensPerChar)
    (h0 : 0 ≤ avail)
    (hgt : avail < countTokens o (optimizeOtherMessages o l avail)) :
    optimizeOtherMessages o l avail =
      (recentRev o o.minRecentTokens 0 l.reverse).reverse ∧
    countTokens o (optimizeOtherMessages o l avail) ≤ o.minRecentTokens := by
  unfold optimizeOtherMessages at hgt ⊢
  by_cases hlen : l.length = 0
  · rw [if_pos hlen] at hgt
    simp [countTokens] at hgt
    omega
  · rw [if_neg hlen] at hgt ⊢
    by_cases hfit : countTokens o l ≤ avail
    · rw [if_pos hfit] at hgt
      omega
    · rw [if_neg hfit] at hgt ⊢
      dsimp only at hgt ⊢
      set recent := (recentRev o o.minRecentTokens 0 l.reverse).reverse with hrec
      set remaining := avail - countTokens o recent with hrem
      set scored := scoreMessages o l with hscored
      set important := selectImportantMessages remaining
        (scored.take (scored.length - recent.length)) with himp
      have hscmem : ∀ s ∈ scored.take (scored.length - recent.length),
          ∃ m, l.get? s.index = some m ∧ s.tokens = countMsg o m := by
        intro s hs
        exact scoreMessages_mem o l s (List.mem_of_mem_take hs)
      have himpmem : ∀ s ∈ important,
          ∃ m, l.get? s.index = some m ∧ s.tokens = countMsg o m := by
        intro s hs
        exact hscmem s (selectImportant_subset _ _ s hs)
      have hsum : countTokens o (important.filterMap (fun s => l.get? s.index)) =
          sumTokens important := countTokens_filterMap o important l himpmem
      rcases lt_or_le remaining 0 with hneg | hpos
      · -- important is empty, the output is exactly the recent run
        have hnn : ∀ s ∈ scored.take (scored.length - recent.length), 0 ≤ s.tokens := by
          intro s hs
          obtain ⟨m, _, ht⟩ := hscmem s hs
          rw [ht]
          exact countMsg_nonneg o m hov hpc
        have hempty : important = [] :=
          selectImportant_nil_of_neg remaining _ hnn hneg
        rw [hempty]
        simp only [List.filterMap_nil, List.nil_append]
        refine ⟨trivial, ?_⟩
        rcases recentRev_sum_le o o.minRecentTokens l.reverse 0 with h | h
        · rw [hrec, countTokens_reverse]
          omega
        · exfalso
          rw [hrec, h] at hrem
          simp only [List.reverse_nil] at hrem
          simp [countTokens] at hrem
          omega
      · -- the output would fit, contradicting hgt
        exfalso
        have hsumle : sumTokens important ≤ remaining :=
          selectImportant_sum_le remaining _ hpos
        rw [countTokens_append, hsum] at hgt
        omega

end Optimizer

namespace Optimizer

theorem optimize_of_fits (o : ContextOptimizerOptions) (R : List ChatMessage)
    (h : countTokens o R ≤ o.maxTokens) :
    optimize o R =
      { messages := R, tokenCount := countTokens o R, messagesRemoved := 0 } := by
  unfold optimize
  rw [if_pos h]

theorem optimizeOther_recent_fixpoint (o : ContextOptimizerOptions)
    (rec : List ChatMessage) (avail : Int)
    (hov : 0 ≤ o.messageOverhead) (hpc : 0 ≤ o.tokensPerChar)
    (h0 : 0 ≤ avail) (hgt : avail < countTokens o rec)
    (hmr : countTokens o rec ≤ o.minRecentTokens) :
    optimizeOtherMessages o rec avail = rec := by
  have hne : ¬ rec.length = 0 := by
    intro h
    rw [List.length_eq_zero] at h
    subst h
    simp [countTokens] at hgt
    omega
  unfold optimizeOtherMessages
  rw [if_neg hne, if_neg (not_le.mpr hgt)]
  dsimp only
  have hall : recentRev o o.minRecentTokens 0 rec.reverse = rec.reverse :=
    recentRev_all o o.minRecentTokens hov hpc rec.reverse 0
      (by rw [countTokens_reverse]; omega)
  rw [hall, List.reverse_reverse, scoreMessages_length]
  simp only [Nat.sub_self, List.take_zero]
  rw [show selectImportantMessages (avail - countTokens o rec) [] = [] from rfl]
  simp

theorem optimize_single_system (o : ContextOptimizerOptions) (s : ChatMessage)
    (hks : isSystemKept o s = true) (hbig : o.maxTokens < countMsg o s) :
    (optimize o [s]).messages = [s] ∧ (optimize o [s]).messagesRemoved = 0 := by
  have hcount : countTokens o [s] = countMsg o s := by simp [countTokens]
  unfold optimize
  rw [if_neg (by omega)]
  unfold applySlidingWindow
  have hfs : [s].filter (fun m => isSystemKept o m) = [s] := by
    simp [List.filter, hks]
  rw [hfs]
  rw [if_pos (by rw [hcount]; omega)]
  exact ⟨rfl, rfl⟩

theorem optimize_sys_recent_fixpoint (o : ContextOptimizerOptions)
    (sys rec : List ChatMessage)
    (hov : 0 ≤ o.messageOverhead) (hpc : 0 ≤ o.tokensPerChar)
    (hsysall : ∀ m ∈ sys, isSystemKept o m = true)
    (hrecall : ∀ m ∈ rec, isSystemKept o m = false)
    (havail : 0 < o.maxTokens - countTokens o sys)
    (hgt : o.maxTokens - countTokens o sys < countTokens o rec)
    (hmr : countTokens o rec ≤ o.minRecentTokens) :
    (optimize o (sys ++ rec)).messages = sys ++ rec ∧
    (optimize o (sys ++ rec)).messagesRemoved = 0 := by
  have htot : o.maxTokens < countTokens o (sys ++ rec) := by
    rw [countTokens_append]; omega
  unfold optimize
  rw [if_neg (by omega)]
  unfold applySlidingWindow
  have hf1 : (sys ++ rec).filter (fun m => isSystemKept o m) = sys := by
    rw [List.filter_append, List.filter_eq_self.mpr hsysall,
      List.filter_eq_nil.mpr (fun a ha => by simp [hrecall a ha]), List.append_nil]
  have hf2 : (sys ++ rec).filter (fun m => !(isSystemKept o m)) = rec := by
    rw [List.filter_append,
      List.filter_eq_nil.mpr (fun a ha => by simp [hsysall a ha]),
      List.filter_eq_self.mpr (fun a ha => by simp [hrecall a ha]),
      List.nil_append]
  rw [hf1, hf2]
  rw [if_neg (by omega)]
  dsimp only
  rw [optimizeOther_recent_fixpoint o rec (o.maxTokens - countTokens o sys)
    hov hpc (by omega) hgt hmr]
  constructor
  · rfl
  · simp

end Optimizer

namespace Optimizer

theorem slidingWindow_fixpoint (o : ContextOptimizerOptions) (msgs : List ChatMessage)
    (hov : 0 ≤ o.messageOverhead) (hpc : 0 ≤ o.tokensPerChar)
    (hmax : 0 ≤ o.maxTokens) :
    (optimize o (applySlidingWindow o msgs).messages).messages =
      (applySlidingWindow o msgs).messages ∧
    (optimize o (applySlidingWindow o msgs).messages).messagesRemoved = 0 := by
  by_cases hA : o.maxTokens -
      countTokens o (msgs.filter (fun m => isSystemKept o m)) ≤ 0
  · have hR : (applySlidingWindow o msgs).messages =
        (msgs.filter (fun m => isSystemKept o m)).take 1 := by
      unfold applySlidingWindow
      rw [if_pos hA]
    rw [hR]
    cases hsys : msgs.filter (fun m => isSystemKept o m) with
    | nil =>
        simp only [List.take_nil]
        rw [optimize_of_fits o [] (by simp [countTokens]; omega)]
        exact ⟨rfl, rfl⟩
    | cons s rest =>
        have htake : (s :: rest).take 1 = [s] := rfl
        rw [htake]
        have hks : isSystemKept o s = true := by
          have hmem : s ∈ msgs.filter (fun m => isSystemKept o m) := by
            rw [hsys]; exact List.mem_cons_self _ _
          exact (List.mem_filter.mp hmem).2
        by_cases hbig : o.maxTokens < countMsg o s
        · exact optimize_single_system o s hks hbig
        · rw [optimize_of_fits o [s] (by simp [countTokens]; omega)]
          exact ⟨rfl, rfl⟩
  · push_neg at hA
    have hR : (applySlidingWindow o msgs).messages =
        msgs.filter (fun m => isSystemKept o m) ++
          optimizeOtherMessages o (msgs.filter (fun m => !(isSystemKept o m)))
            (o.maxTokens - countTokens o (msgs.filter (fun m => isSystemKept o m))) := by
      unfold applySlidingWindow
      rw [if_neg (not_le.mpr hA)]
    rw [hR]
    set sys := msgs.filter (fun m => isSystemKept o m) with hsys
    set others := msgs.filter (fun m => !(isSystemKept o m)) with hoth
    set avail := o.maxTokens - countTokens o sys with havail
    set OO := optimizeOtherMessages o others avail with hOO
    by_cases hfit : countTokens o (sys ++ OO) ≤ o.maxTokens
    · rw [optimize_of_fits o _ hfit]
      exact ⟨rfl, rfl⟩
    · push_neg at hfit
      have hOOgt : avail < countTokens o OO := by
        rw [countTokens_append] at hfit
        omega
      obtain ⟨_, hOOmr⟩ :=
        optimizeOther_over_budget o others avail hov hpc (by omega) hOOgt
      apply optimize_sys_recent_fixpoint o sys OO hov hpc
      · intro m hm
        exact (List.mem_filter.mp hm).2
      · intro m hm
        have hmo : m ∈ others := optimizeOther_subset o others avail m hm
        have := (List.mem_filter.mp hmo).2
        simpa using this
      · omega
      · exact hOOgt
      · exact hOOmr

end Optimizer

/-- C4 (amended): `optimize` on an already-fitting message list returns it
unchanged with `messagesRemoved = 0`; and re-running `optimize` on the
result of any first application returns that result unchanged with
`messagesRemoved = 0` — even though the first result need not fit the
budget (see the counterexample), so the "because the result fits" reading
fails while idempotence itself holds. Hypotheses: non-negative
per-message overhead, tokens-per-char ratio and budget, as in any real
configuration. -/
theorem C4_optimize_idempotent (o : Optimizer.ContextOptimizerOptions)
    (msgs : List Optimizer.ChatMessage)
    (hov : 0 ≤ o.messageOverhead) (hpc : 0 ≤ o.tokensPerChar)
    (hmax : 0 ≤ o.maxTokens) :
    (Optimizer.countTokens o msgs ≤ o.maxTokens →
      Optimizer.optimize o msgs =
        { messages := msgs, tokenCount := Optimizer.countTokens o msgs,
          messagesRemoved := 0 }) ∧
    (Optimizer.optimize o (Optimizer.optimize o msgs).messages).messages =
      (Optimizer.optimize o msgs).messages ∧
    (Optimizer.optimize o (Optimizer.optimize o msgs).messages).messagesRemoved
      = 0 := by
  refine ⟨fun h => Optimizer.optimize_of_fits o msgs h, ?_⟩
  by_cases h : Optimizer.countTokens o msgs ≤ o.maxTokens
  · have h1 := Optimizer.optimize_of_fits o msgs h
    rw [h1]
    dsimp only
    rw [h1]
    exact ⟨rfl, rfl⟩
  · have hR : Optimizer.optimize o msgs = Optimizer.applySlidingWindow o msgs := by
      unfold Optimizer.optimize
      rw [if_neg h]
    rw [hR]
    exact Optimizer.slidingWindow_fixpoint o msgs hov hpc hmax

theorem c4cex_countMsg : Optimizer.countMsg c4cexOpts c4cexMsg = 11 := by
  unfold Optimizer.countMsg c4cexOpts c4cexMsg
  have h4 : ("aaaa" : String).length = 4 := rfl
  simp only [h4]
  norm_num

theorem c4cex_countTokens : Optimizer.countTokens c4cexOpts c4cexMsgs = 55 := by
  simp [Optimizer.countTokens, c4cexMsgs, c4cex_countMsg]

/-- C4 counterexample: with `minRecentTokens` (1000) above the budget
(`maxTokens` 50), five user messages estimating 55 tokens are all retained
as the "recent" run: the first application returns an over-budget result
(55 tokens) and removes nothing, refuting "the first application's result
always fits the budget". -/
theorem C4_first_result_can_exceed_budget :
    c4cexOpts.maxTokens < Optimizer.countTokens c4cexOpts c4cexMsgs ∧
    c4cexOpts.maxTokens < (Optimizer.optimize c4cexOpts c4cexMsgs).tokenCount ∧
    (Optimizer.optimize c4cexOpts c4cexMsgs).messagesRemoved = 0 := by
  have hmax : c4cexOpts.maxTokens = 50 := rfl
  have hct := c4cex_countTokens
  have hpc : (0:ℚ) ≤ c4cexOpts.tokensPerChar := by
    rw [show c4cexOpts.tokensPerChar = 1/4 from rfl]
    norm_num
  refine ⟨by omega, ?_⟩
  have hopt : Optimizer.optimize c4cexOpts c4cexMsgs =
      Optimizer.applySlidingWindow c4cexOpts c4cexMsgs := by
    unfold Optimizer.optimize
    rw [if_neg (by omega)]
  have hfil1 : c4cexMsgs.filter (fun m => Optimizer.isSystemKept c4cexOpts m)
      = [] := by decide
  have hfil2 : c4cexMsgs.filter (fun m => !(Optimizer.isSystemKept c4cexOpts m))
      = c4cexMsgs := by decide
  have hOO : Optimizer.optimizeOtherMessages c4cexOpts c4cexMsgs
      (c4cexOpts.maxTokens - Optimizer.countTokens c4cexOpts []) = c4cexMsgs := by
    apply Optimizer.optimizeOther_recent_fixpoint c4cexOpts c4cexMsgs _
      (by rw [show c4cexOpts.messageOverhead = 10 from rfl]; omega) hpc
    · rw [show Optimizer.countTokens c4cexOpts [] = 0 from rfl]
      omega
    · rw [show Optimizer.countTokens c4cexOpts [] = 0 from rfl]
      omega
    · rw [hct, show c4cexOpts.minRecentTokens = 1000 from rfl]
      omega
  have hsw : Optimizer.applySlidingWindow c4cexOpts c4cexMsgs =
      { messages := c4cexMsgs, tokenCount := 55, messagesRemoved := 0 } := by
    unfold Optimizer.applySlidingWindow
    rw [hfil1, hfil2]
    rw [if_neg (by rw [show Optimizer.countTokens c4cexOpts [] = 0 from rfl]; omega)]
    dsimp only
    rw [hOO]
    simp only [List.nil_append]
    rw [hct]
    have hlen : (c4cexMsgs.length : Int) = 5 := rfl
    rw [hlen]
    norm_num
  rw [hopt, hsw]
  exact ⟨(by norm_num : (50:ℤ) < 55), rfl⟩

theorem c4w_countMsg : Optimizer.countMsg c4wOpts c4cexMsg = 11 := by
  unfold Optimizer.countMsg c4wOpts c4cexMsg
  have h4 : ("aaaa" : String).length = 4 := rfl
  simp only [h4]
  norm_num

/-- C4 witness: the fitting branch on a two-message list (22 tokens within
budget 50) and the idempotence branch on an over-budget five-message list
that the first pass shrinks to four. -/
theorem C4_optimize_idempotent_witness :
    (Optimizer.optimize c4wOpts c4wMsgsFit =
      { messages := c4wMsgsFit,
        tokenCount := Optimizer.countTokens c4wOpts c4wMsgsFit,
        messagesRemoved := 0 }) ∧
    (Optimizer.optimize c4wOpts (Optimizer.optimize c4wOpts c4wMsgs).messages).messages =
      (Optimizer.optimize c4wOpts c4wMsgs).messages ∧
    (Optimizer.optimize c4wOpts
        (Optimizer.optimize c4wOpts c4wMsgs).messages).messagesRemoved = 0 := by
  have hov : (0:ℤ) ≤ c4wOpts.messageOverhead := by
    rw [show c4wOpts.messageOverhead = 10 from rfl]; omega
  have hpc : (0:ℚ) ≤ c4wOpts.tokensPerChar := by
    rw [show c4wOpts.tokensPerChar = 1/4 from rfl]; norm_num
  have hmax : (0:ℤ) ≤ c4wOpts.maxTokens := by
    rw [show c4wOpts.maxTokens = 50 from rfl]; omega
  have hfit : Optimizer.countTokens c4wOpts c4wMsgsFit ≤ c4wOpts.maxTokens := by
    have : Optimizer.countTokens c4wOpts c4wMsgsFit = 22 := by
      simp [Optimizer.countTokens, c4wMsgsFit, c4w_countMsg]
    rw [this, show c4wOpts.maxTokens = 50 from rfl]
    omega
  exact ⟨(C4_optimize_idempotent c4wOpts c4wMsgsFit hov hpc hmax).1 hfit,
    (C4_optimize_idempotent c4wOpts c4wMsgs hov hpc hmax).2⟩
